import Mathlib

/-!
Verification of the markov-chain-chat repository: a shallow embedding of
the chain model (src/markovchainbot/chain.py), the text normalizer
(src/markovchainbot/text.py) and the JSON serialization layer
(src/markovchainbot/serialization.py), together with proofs about the
behaviour that the design document promises.

Modelling conventions:
* Python dicts are insertion-ordered association lists (type Dict below);
  assignment updates the first matching key in place and appends fresh keys.
* Python sets of token ids are insertion-ordered duplicate-free lists.
* Floats produced by the numpy random generator are rationals in [0, 1);
  the generator itself is an explicit tape of draws consumed left to right.
* Characters are Lean Char; the ASCII fragment of the Python character
  classes (\w, \d, \s) is modelled explicitly.
* Fallible Python code (raising exceptions) is modelled with Except.
-/

set_option synthInstance.maxSize 512

deriving instance DecidableEq for Except

namespace MarkovBot

/-- A Python dict: an insertion-ordered association list. -/
abbrev Dict (α β : Type) := List (α × β)

/-- A normalized word, modelled as its list of characters. -/
abbrev Word := List Char

/-- Dictionary lookup: the value stored at the first occurrence of the key
(Python d[k] / d.get(k), which are the same on dicts without duplicates). -/
def dget? {α β : Type} [DecidableEq α] : Dict α β → α → Option β
  | [], _ => none
  | (k, v) :: rest, key => if key = k then some v else dget? rest key

/-- Dictionary assignment d[k] = v: update the first occurrence of the key in
place (keeping its position), or append the new binding at the end. -/
def dset {α β : Type} [DecidableEq α] : Dict α β → α → β → Dict α β
  | [], key, val => [(key, val)]
  | (k, v) :: rest, key, val =>
    if key = k then (k, val) :: rest else (k, v) :: dset rest key val

/-- Keys of a dict, in insertion order. -/
def dkeys {α β : Type} (d : Dict α β) : List α := d.map Prod.fst

/-- Values of a dict, in insertion order. -/
def dvalues {α β : Type} (d : Dict α β) : List β := d.map Prod.snd

/-- Building a dict from a sequence of assignments starting from the empty
dict: the Python dict literal/comprehension over a stream of pairs. -/
def dictOfList {α β : Type} [DecidableEq α] (l : List (α × β)) : Dict α β :=
  l.foldl (fun d p => dset d p.1 p.2) []

/-- Python set(xs) for a list of token ids: keep the first occurrence of
each element, in order of first appearance. -/
def dedupKeep : List Nat → List Nat → List Nat
  | [], _ => []
  | x :: rest, seen =>
    if x ∈ seen then dedupKeep rest seen else x :: dedupKeep rest (x :: seen)

/-- Python set-insert on the insertion-ordered set model. -/
def saddElem (l : List Nat) (x : Nat) : List Nat :=
  if x ∈ l then l else l ++ [x]

/-! ## text.py -/

/-- The Python \s class (ASCII fragment): the characters the source's
whitespace patterns match. -/
def pyIsSpace (c : Char) : Bool :=
  c = ' ' ∨ c = '\t' ∨ c = '\n' ∨ c = '\r' ∨ c = '\x0b' ∨ c = '\x0c'

/-- The Python \w class (ASCII fragment): letters, digits and underscore. -/
def pyIsWordChar (c : Char) : Bool :=
  c.isAlpha ∨ c.isDigit ∨ c = '_'

/-- The character class of the first substitution in process_message:
a character survives re.sub(r"[^\w\d\s\?\!\"\':<>]", "", m) exactly when it
belongs to this class. -/
def keepChar (c : Char) : Bool :=
  pyIsWordChar c ∨ c.isDigit ∨ pyIsSpace c ∨
    c = '?' ∨ c = '!' ∨ c = '"' ∨ c = '\'' ∨ c = ':' ∨ c = '<' ∨ c = '>'

/-- Step 1 of process_message: strip every character outside the kept class. -/
def stripChars (m : Word) : Word := m.filter keepChar

/-- Step 2 of process_message: re.sub(r"(\?|\!|;|~~)", r" \1", m), inserting
a space before each match, scanning left to right without overlaps. -/
def spacePunct : Word → Word
  | [] => []
  | '~' :: '~' :: rest => ' ' :: '~' :: '~' :: spacePunct rest
  | c :: rest =>
    if c = '?' ∨ c = '!' ∨ c = ';' then ' ' :: c :: spacePunct rest
    else c :: spacePunct rest

mutual

/-- Step 3 of process_message: re.split(r"\s+|,|\.|;", m).  A maximal run
of whitespace, or a single comma, period or semicolon, separates tokens;
empty tokens are produced at adjacent separators and at the ends. -/
def splitMsg : Word → List Word
  | [] => [[]]
  | c :: rest =>
    if pyIsSpace c then [] :: splitMsgRun rest
    else if c = ',' ∨ c = '.' ∨ c = ';' then [] :: splitMsg rest
    else List.modifyHead (fun t => c :: t) (splitMsg rest)

/-- Continuation of splitMsg directly after a whitespace character: the
regex \s+ greedily extends the current separator over further whitespace. -/
def splitMsgRun : Word → List Word
  | [] => [[]]
  | c :: rest =>
    if pyIsSpace c then splitMsgRun rest
    else if c = ',' ∨ c = '.' ∨ c = ';' then [] :: splitMsg rest
    else List.modifyHead (fun t => c :: t) (splitMsg rest)

end

/-- The start-of-message marker token. -/
def startMarker : Word := "<start>".toList

/-- The end-of-message marker token. -/
def endMarker : Word := "<end>".toList

/-- Python str.upper (ASCII fragment). -/
def pyUpper (w : Word) : Word := w.map Char.toUpper

/-- Python str.lower (ASCII fragment). -/
def pyLower (w : Word) : Word := w.map Char.toLower

/-- The filter step of process_message: drop empty tokens and tokens that
start with "http". -/
def keepWord (w : Word) : Bool :=
  ¬ ("http".toList.isPrefixOf w) ∧ w.length > 0

/-- The case-folding step of process_message: lowercase a token unless it is
already fully uppercase or contains a '<'. -/
def caseFold (w : Word) : Word :=
  if pyUpper w = w ∨ '<' ∈ w then w else pyLower w

/-- process_message from src/markovchainbot/text.py: strip characters,
space out punctuation, split, add the start/end markers, filter, case-fold. -/
def processMessage (m : Word) : List Word :=
  let m1 := stripChars m
  let m2 := spacePunct m1
  let ws := splitMsg m2
  let ws2 := [startMarker] ++ ws ++ [endMarker]
  let ws3 := ws2.filter keepWord
  ws3.map caseFold

/-- Inner loop of levenshtein_distance: given the character c2 of the outer
row, the remaining characters of s1, the suffix of the previous row aligned
with them, and the last value appended to the current row, produce the rest
of the current row. -/
def levRowAux (c2 : Char) : Word → List Nat → Nat → List Nat
  | [], _, _ => []
  | c1 :: s1rest, prev, last =>
    let p0 := prev.headD 0
    let p1 := (prev.drop 1).headD 0
    let v := if c1 = c2 then p0 else 1 + Nat.min p0 (Nat.min p1 last)
    v :: levRowAux c2 s1rest (prev.drop 1) v

/-- One iteration of the outer loop of levenshtein_distance: the full
current row for character c2 at (0-based) index idx2 of s2. -/
def levRow (c2 : Char) (idx2 : Nat) (s1 : Word) (prev : List Nat) : List Nat :=
  (idx2 + 1) :: levRowAux c2 s1 prev (idx2 + 1)

/-- The outer loop of levenshtein_distance over the rest of s2. -/
def levLoop (s1 : Word) : Word → Nat → List Nat → List Nat
  | [], _, prev => prev
  | c2 :: s2rest, idx2, prev => levLoop s1 s2rest (idx2 + 1) (levRow c2 idx2 s1 prev)

/-- levenshtein_distance from src/markovchainbot/text.py: single-row dynamic
programming over the shorter string, returning the last cell of the final
row. -/
def levenshtein_distance (s1 s2 : Word) : Nat :=
  let p := if s1.length > s2.length then (s2, s1) else (s1, s2)
  (levLoop p.1 p.2 0 (List.range (p.1.length + 1))).getLast?.getD 0

/-! ## config.py -/

/-- TrainingConfig from src/markovchainbot/config.py. -/
structure TrainingConfig where
  maxOrder : Nat
deriving DecidableEq

/-- GenerationConfig from src/markovchainbot/config.py; the probability
fields are the float parameters, modelled as rationals. -/
structure GenerationConfig where
  maxLength : Nat
  minLength : Nat
  randomizeProbabilityBase : ℚ
  randomizeProbabilityIncrement : ℚ
  shortSentenceRetryProbability : ℚ
deriving DecidableEq

/-- The default GenerationConfig (max_length 200, min_length 3, both
randomize probabilities 0.03, retry probability 0.5). -/
def defaultGenerationConfig : GenerationConfig :=
  { maxLength := 200, minLength := 3,
    randomizeProbabilityBase := 3 / 100,
    randomizeProbabilityIncrement := 3 / 100,
    shortSentenceRetryProbability := 1 / 2 }

/-! ## chain.py: state and training -/

/-- The MarkovChain dataclass: per-order transition tables are dicts from
order to a dict from context tuple to a dict from next token to its count. -/
structure MarkovChain where
  trainingConfig : TrainingConfig
  generationConfig : GenerationConfig
  wordToToken : Dict Word Nat
  tokenToWord : Dict Nat Word
  vocabularyTokenIds : List Nat
  chains : Dict Nat (Dict (List Nat) (Dict Nat Nat))
  currentTokenId : Nat
deriving DecidableEq

/-- A freshly constructed MarkovChain: empty vocabulary and tables. -/
def initChain (tc : TrainingConfig) (gc : GenerationConfig) : MarkovChain :=
  { trainingConfig := tc, generationConfig := gc,
    wordToToken := [], tokenToWord := [], vocabularyTokenIds := [],
    chains := [], currentTokenId := 0 }

/-- _add_as_token: register a word in the vocabulary if not already present,
assigning it the next sequential id. -/
def addAsToken (mc : MarkovChain) (w : Word) : MarkovChain :=
  if (dget? mc.wordToToken w).isSome then mc
  else
    { mc with
      wordToToken := dset mc.wordToToken w mc.currentTokenId,
      tokenToWord := dset mc.tokenToWord mc.currentTokenId w,
      vocabularyTokenIds := saddElem mc.vocabularyTokenIds mc.currentTokenId,
      currentTokenId := mc.currentTokenId + 1 }

/-- The context tuple tokens[i : i + order]. -/
def ctxAt (tokens : List Nat) (i order : Nat) : List Nat :=
  (tokens.drop i).take order

/-- One iteration of the inner training loop: create the context entry if
needed and increment the count of the next token. -/
def bumpEntry (tbl : Dict (List Nat) (Dict Nat Nat)) (ctx : List Nat)
    (nxt : Nat) : Dict (List Nat) (Dict Nat Nat) :=
  let inner := (dget? tbl ctx).getD []
  dset tbl ctx (dset inner nxt ((dget? inner nxt).getD 0 + 1))

/-- The inner loop of _add_to_chain for one order: scan every position i in
range(len(tokens) - order). -/
def addOrderChain (tokens : List Nat) (order : Nat)
    (tbl : Dict (List Nat) (Dict Nat Nat)) : Dict (List Nat) (Dict Nat Nat) :=
  (List.range (tokens.length - order)).foldl
    (fun t i => bumpEntry t (ctxAt tokens i order) (tokens.getD (i + order) 0))
    tbl

/-- _add_to_chain: look the words up in the vocabulary and extend every
order's transition table. -/
def addToChain (mc : MarkovChain) (ws : List Word) : MarkovChain :=
  let tokens := ws.map (fun w => (dget? mc.wordToToken w).getD 0)
  { mc with
    chains :=
      (List.range' 1 mc.trainingConfig.maxOrder).foldl
        (fun cs order =>
          dset cs order (addOrderChain tokens order ((dget? cs order).getD [])))
        mc.chains }

/-- Stable insertion of a binding into a count dict sorted by descending
count: bindings inserted earlier pass in front of strictly greater counts
only, so originally earlier bindings stay first on ties. -/
def insertDesc (p : Nat × Nat) : Dict Nat Nat → Dict Nat Nat
  | [] => [p]
  | q :: rest => if q.2 > p.2 then q :: insertDesc p rest else p :: q :: rest

/-- Python sorted(counts, key=counts.get, reverse=True) on a count dict: the
stable sort by descending count (insertion sort from the right is stable, so
it produces the same list as Python's stable sort). -/
def sortCountsDesc (d : Dict Nat Nat) : Dict Nat Nat :=
  d.foldr insertDesc []

/-- _sort_chains: rebuild every transition map sorted by descending count. -/
def sortChains (mc : MarkovChain) : MarkovChain :=
  { mc with
    chains :=
      mc.chains.map (fun op =>
        (op.1, op.2.map (fun cp => (cp.1, sortCountsDesc cp.2)))) }

/-- One iteration of the message loop of add_messages: normalize the
message, register every word, then extend the chains. -/
def trainStep (mc : MarkovChain) (msg : Word) : MarkovChain :=
  let ws := processMessage msg
  addToChain (ws.foldl addAsToken mc) ws

/-- add_messages: process each message, register its words, extend the
chains, and finally re-sort all transition maps. -/
def addMessages (mc : MarkovChain) (messages : List Word) : MarkovChain :=
  sortChains (messages.foldl trainStep mc)

/-! ## chain.py: prediction and generation

The single numpy generator owned by the model is modelled as a tape of
rational draws in [0, 1), consumed left to right; each call to rng.random()
or rng.choice consumes one draw.  An exhausted tape yields 0. -/

/-- One draw from the random tape. -/
def randDraw : List ℚ → ℚ × List ℚ
  | [] => (0, [])
  | r :: rest => (r, rest)

/-- _get_random_token: a uniform choice from the vocabulary id set, the draw
r in [0, 1) selecting index floor(r * size). -/
def getRandomToken (mc : MarkovChain) (tape : List ℚ) : Nat × List ℚ :=
  let d := randDraw tape
  (mc.vocabularyTokenIds.getD (⌊d.1 * mc.vocabularyTokenIds.length⌋₊) 0, d.2)

/-- The scanning loop of _pick_randomly: accumulate counts and return the
first token whose cumulative count reaches the threshold. -/
def pickLoop : Dict Nat Nat → Nat → ℚ → Option Nat
  | [], _, _ => none
  | (tok, cnt) :: rest, cum, thr =>
    if (cum + cnt : ℚ) ≥ thr then some tok else pickLoop rest (cum + cnt) thr

/-- _pick_randomly with draw r: threshold r * total, linear walk in stored
order, falling back to the first entry. -/
def pickRandomly (weights : Dict Nat Nat) (r : ℚ) : Nat :=
  let total : Nat := (weights.map Prod.snd).sum
  match pickLoop weights 0 (r * total) with
  | some tok => tok
  | none => ((weights.map Prod.fst).headD 0)

/-- The order-k transition table (self._chains.get(order, {})). -/
def orderTable (mc : MarkovChain) (k : Nat) : Dict (List Nat) (Dict Nat Nat) :=
  (dget? mc.chains k).getD []

/-- The last k tokens of the context (context[-k:] for 1 ≤ k ≤ len). -/
def lastTokens (ctx : List Nat) (k : Nat) : List Nat :=
  ctx.drop (ctx.length - k)

/-- The descending-order scan of predict_next_token: try orders k, k-1, ...,
1 and return the first transition map whose key matches. -/
def predictFind (mc : MarkovChain) (ctx : List Nat) : Nat → Option (Dict Nat Nat)
  | 0 => none
  | k + 1 =>
    match dget? (orderTable mc (k + 1)) (lastTokens ctx (k + 1)) with
    | some tbl => some tbl
    | none => predictFind mc ctx k

/-- predict_next_token: sample from the highest-order matching table, or
fall back to a uniform random vocabulary token. -/
def predictNextToken (mc : MarkovChain) (ctx : List Nat) (tape : List ℚ) :
    Nat × List ℚ :=
  match predictFind mc ctx (Nat.min mc.trainingConfig.maxOrder ctx.length) with
  | some tbl =>
    let d := randDraw tape
    (pickRandomly tbl d.1, d.2)
  | none => getRandomToken mc tape

/-- _resolve_token's fuzzy branch: Python min(keys, key=f) returns the first
key attaining the minimum of f, scanning in insertion order. -/
def argminBy (f : Word → Nat) : List Word → Option Word
  | [] => none
  | w :: rest =>
    match argminBy f rest with
    | none => some w
    | some best => if f best < f w then some best else some w

/-- _resolve_token: exact lookup, else the vocabulary word with minimum
Levenshtein distance (first one on ties). -/
def resolveToken (mc : MarkovChain) (w : Word) : Nat :=
  match dget? mc.wordToToken w with
  | some t => t
  | none =>
    match argminBy (fun v => levenshtein_distance w v) (dkeys mc.wordToToken) with
    | some closest => (dget? mc.wordToToken closest).getD 0
    | none => 0

/-- The state threaded through the generation loop of continue_sentence. -/
structure GenState where
  tape : List ℚ
  context : List Nat
  generated : List Word
  randomizeProbability : ℚ

/-- The word form of a token (self._token_to_word[t]). -/
def wordOf (mc : MarkovChain) (t : Nat) : Word :=
  (dget? mc.tokenToWord t).getD []

/-- The while-loop of continue_sentence.  Each iteration consumes at least
one draw from the tape, so the loop is run on an explicit iteration budget
(the fuel); a run of the Python loop that makes n iterations is reproduced
exactly by any fuel ≥ n holding the same tape. -/
def genLoop (mc : MarkovChain) (cfg : GenerationConfig) (endTok : Nat) :
    Nat → GenState → List Word
  | 0, st => st.generated
  | fuel + 1, st =>
    if st.generated.length < cfg.maxLength then
      let c := randDraw st.tape
      let step :=
        if c.1 < st.randomizeProbability then
          let g := getRandomToken mc c.2
          (g.1, g.2, cfg.randomizeProbabilityBase)
        else
          let p := predictNextToken mc st.context c.2
          (p.1, p.2, st.randomizeProbability)
      let nextTok := step.1
      let inc := randDraw step.2.1
      let rp2 := step.2.2 + inc.1 * cfg.randomizeProbabilityIncrement
      let ctx2 := st.context ++ [nextTok]
      if nextTok = endTok then
        if st.generated.length < cfg.minLength then
          let retry := randDraw inc.2
          if retry.1 < cfg.shortSentenceRetryProbability then
            genLoop mc cfg endTok fuel
              { tape := retry.2, context := ctx2,
                generated := st.generated, randomizeProbability := rp2 }
          else st.generated
        else st.generated
      else
        genLoop mc cfg endTok fuel
          { tape := inc.2, context := ctx2,
            generated := st.generated ++ [wordOf mc nextTok],
            randomizeProbability := rp2 }
    else st.generated

/-- continue_sentence up to the point of joining: raise if the vocabulary is
empty, normalize and resolve the seed (dropping the trailing end marker),
seed an empty context with one random token, then run the loop. -/
def continueSentenceWords (mc : MarkovChain) (fuel : Nat) (tape : List ℚ)
    (sentence : Word) : Except Word (List Word) :=
  if mc.wordToToken = [] then
    .error "Model has no vocabulary. Train before generating.".toList
  else
    let ws := (processMessage sentence).dropLast
    let tokens := ws.map (resolveToken mc)
    let seeded :=
      if tokens = [] then
        let g := getRandomToken mc tape
        ([g.1], g.2)
      else (tokens, tape)
    let endTok := (dget? mc.wordToToken endMarker).getD 0
    .ok (genLoop mc mc.generationConfig endTok fuel
      { tape := seeded.2, context := seeded.1, generated := [],
        randomizeProbability := mc.generationConfig.randomizeProbabilityBase })

/-- continue_sentence: the generated words joined by single spaces. -/
def continueSentence (mc : MarkovChain) (fuel : Nat) (tape : List ℚ)
    (sentence : Word) : Except Word Word :=
  (continueSentenceWords mc fuel tape sentence).map (List.intercalate [' '])

/-! ## serialization.py

The parsed JSON document is modelled structurally; the numerals appearing in
the file (token ids, orders, counts, version) are naturals.  Reading and
decoding the file may fail before any JSON value exists, which load wraps in
ValueError("Failed to load model from ..."); that prior failure is modelled
by passing none.  Exceptions escaping load untouched are modelled by the
other PyErr constructors. -/

/-- A parsed JSON value (the constructors the serializer produces plus
arrays, so that ill-shaped documents can be expressed). -/
inductive Json where
  | num (n : Nat)
  | str (s : Word)
  | arr (elems : List Json)
  | obj (fields : List (Word × Json))

/-- The Python exceptions load can surface: the wrapped load error raised
from JSONDecodeError/OSError, and the unwrapped KeyError, ValueError,
TypeError and AttributeError of the reconstruction code. -/
inductive PyErr where
  | loadError
  | keyError (k : Word)
  | valueError
  | typeError
  | attributeError
deriving DecidableEq

/-- Decimal digits with an explicit recursion budget; the budget n itself is
always sufficient since n / 10 < n. -/
def natDigitsAux : Nat → Nat → List Nat
  | 0, n => [n]
  | fuel + 1, n =>
    if n < 10 then [n] else natDigitsAux fuel (n / 10) ++ [n % 10]

/-- Decimal digits of a natural number, most significant first. -/
def natDigits (n : Nat) : List Nat := natDigitsAux n n

/-- Python str(n) for a natural number. -/
def natToWord (n : Nat) : Word :=
  (natDigits n).map (fun d => Char.ofNat (48 + d))

/-- The numeric value of a decimal digit character. -/
def digitVal (c : Char) : Option Nat :=
  if '0' ≤ c ∧ c ≤ '9' then some (c.toNat - 48) else none

/-- Left-to-right accumulation of decimal digits. -/
def parseDigits (w : Word) : Option Nat :=
  w.foldl (fun acc c => acc.bind (fun a => (digitVal c).map (fun d => a * 10 + d))) (some 0)

/-- Python int(s) on the strings the serializer writes: a nonempty run of
decimal digits; anything else raises ValueError. -/
def parsePyNat (w : Word) : Except PyErr Nat :=
  match w, parseDigits w with
  | [], _ => .error .valueError
  | _ :: _, some n => .ok n
  | _ :: _, none => .error .valueError

/-- ",".join of the string forms of the context tokens. -/
def ctxKey (ctx : List Nat) : Word :=
  List.intercalate [','] (ctx.map natToWord)

/-- The "chains" member written by save. -/
def serializeChains (chains : Dict Nat (Dict (List Nat) (Dict Nat Nat))) :
    List (Word × Json) :=
  chains.map (fun op =>
    (natToWord op.1,
      Json.obj (op.2.map (fun cp =>
        (ctxKey cp.1,
          Json.obj (cp.2.map (fun tp => (natToWord tp.1, Json.num tp.2))))))))

/-- save from src/markovchainbot/serialization.py: the JSON document written
for a chain. -/
def save (mc : MarkovChain) : Json :=
  Json.obj
    [("version".toList, Json.num 1),
     ("training_config".toList,
       Json.obj [("max_order".toList, Json.num mc.trainingConfig.maxOrder)]),
     ("word_to_token".toList,
       Json.obj (mc.wordToToken.map (fun p => (p.1, Json.num p.2)))),
     ("chains".toList, Json.obj (serializeChains mc.chains))]

/-- Subscription data[k] on a parsed JSON value: a missing key raises
KeyError, subscripting a non-object with a string raises TypeError. -/
def jget (j : Json) (k : Word) : Except PyErr Json :=
  match j with
  | .obj fields =>
    match dget? fields k with
    | some v => .ok v
    | none => .error (.keyError k)
  | _ => .error .typeError

/-- .items() iteration over a parsed JSON value: on anything but an object
the attribute access raises AttributeError. -/
def jitems (j : Json) : Except PyErr (List (Word × Json)) :=
  match j with
  | .obj fields => .ok fields
  | _ => .error .typeError

/-- A JSON value used directly as an integer field (counts, max_order). -/
def asNum (j : Json) : Except PyErr Nat :=
  match j with
  | .num n => .ok n
  | _ => .error .typeError

/-- Python int(x) on a parsed JSON value. -/
def pyInt (j : Json) : Except PyErr Nat :=
  match j with
  | .num n => .ok n
  | .str s => parsePyNat s
  | _ => .error .typeError

/-- Left-to-right effectful map, stopping at the first exception, matching
the order in which the Python loops raise. -/
def mapE {α β : Type} (f : α → Except PyErr β) : List α → Except PyErr (List β)
  | [] => .ok []
  | a :: l => do
    let b ← f a
    let bs ← mapE f l
    pure (b :: bs)

/-- Python max over the token ids; max of an empty sequence raises
ValueError. -/
def pyMaxList : List Nat → Except PyErr Nat
  | [] => .error .valueError
  | x :: l => .ok (l.foldl Nat.max x)

/-- One word_to_token entry as load reads it: the word with int(id). -/
def loadWordEntry (p : Word × Json) : Except PyErr (Word × Nat) :=
  (pyInt p.2).map (fun t => (p.1, t))

/-- One (next token, count) entry of a serialized transition map. -/
def loadInnerEntry (r : Word × Json) : Except PyErr (Nat × Nat) := do
  let tok ← parsePyNat r.1
  let cnt ← asNum r.2
  pure (tok, cnt)

/-- One context entry of one order: split the key on commas and parse each
token id, then rebuild the inner count dict. -/
def loadCtxEntry (q : Word × Json) : Except PyErr (List Nat × Dict Nat Nat) := do
  let ctx ← mapE parsePyNat (List.splitOn ',' q.1)
  let items ← jitems q.2
  let inner ← mapE loadInnerEntry items
  pure (ctx, dictOfList inner)

/-- One order entry of the "chains" member. -/
def loadOrderEntry (p : Word × Json) :
    Except PyErr (Nat × Dict (List Nat) (Dict Nat Nat)) := do
  let order ← parsePyNat p.1
  let items ← jitems p.2
  let tbl ← mapE loadCtxEntry items
  pure (order, dictOfList tbl)

/-- load from src/markovchainbot/serialization.py, applied to the outcome of
reading and JSON-decoding the file (none when that failed): reconstruct the
vocabulary maps, the id set, the next-id counter, the per-order tables and
the training config, in the source's evaluation order. -/
def load (raw : Option Json) : Except PyErr MarkovChain :=
  match raw with
  | none => .error .loadError
  | some data => do
    let wttJson ← jget data "word_to_token".toList
    let items ← jitems wttJson
    let pairs ← mapE loadWordEntry items
    let wordToToken := dictOfList pairs
    let tokenToWord := dictOfList (wordToToken.map (fun p => (p.2, p.1)))
    let vocabularyTokenIds := dedupKeep (dvalues wordToToken) []
    let maxId ← pyMaxList (dvalues wordToToken)
    let chainsJson ← jget data "chains".toList
    let chainItems ← jitems chainsJson
    let chainEntries ← mapE loadOrderEntry chainItems
    let tcJson ← jget data "training_config".toList
    let moJson ← jget tcJson "max_order".toList
    let maxOrder ← asNum moJson
    pure
      { trainingConfig := { maxOrder := maxOrder },
        generationConfig := defaultGenerationConfig,
        wordToToken := wordToToken,
        tokenToWord := tokenToWord,
        vocabularyTokenIds := vocabularyTokenIds,
        chains := dictOfList chainEntries,
        currentTokenId := maxId + 1 }

/-! ## Reference definitions used to state and prove the claims -/

/-- Textbook Levenshtein distance by recursion on the heads; the reference
against which the single-row implementation is verified. -/
def levT : Word → Word → Nat
  | [], ys => ys.length
  | _ :: xs, [] => xs.length + 1
  | x :: xs, y :: ys =>
    if x = y then levT xs ys
    else 1 + Nat.min (levT xs ys) (Nat.min (levT xs (y :: ys)) (levT (x :: xs) ys))
termination_by a b => a.length + b.length

/-- Cost-bounded alignments between two words: matching heads are free, and
one unit buys a substitution, deletion or insertion at the head. -/
inductive TrLe : Nat → Word → Word → Prop
  | nil (n : Nat) : TrLe n [] []
  | keep {n : Nat} {a b : Word} (c : Char) : TrLe n a b → TrLe n (c :: a) (c :: b)
  | subst {n : Nat} {a b : Word} (c d : Char) : TrLe n a b → TrLe (n + 1) (c :: a) (d :: b)
  | del {n : Nat} {a b : Word} (c : Char) : TrLe n a b → TrLe (n + 1) (c :: a) b
  | ins {n : Nat} {a b : Word} (c : Char) : TrLe n a b → TrLe (n + 1) a (c :: b)

/-- The reference distances from every prefix of x ++ u that extends x to
the word w: the meaning of one row of the single-row implementation. -/
def rowSpec (x : Word) : Word → Word → List Nat
  | [], w => [levT x w]
  | c :: u, w => levT x w :: rowSpec (x ++ [c]) u w

/-- The character class named by the specification's normalization step 1:
alphanumeric, whitespace, or one of the six listed punctuation characters. -/
def specKeepChar (c : Char) : Bool :=
  c.isAlphanum ∨ pyIsSpace c ∨
    c = '?' ∨ c = '!' ∨ c = '"' ∨ c = '\'' ∨ c = '<' ∨ c = '>'

/-- The amended character class: the source regex keeps, in addition to the
specification's list, the colon (listed in the class) and the underscore
(matched by \w). -/
def amendedKeepChar (c : Char) : Bool :=
  c.isAlphanum ∨ c = '_' ∨ pyIsSpace c ∨
    c = '?' ∨ c = '!' ∨ c = '"' ∨ c = '\'' ∨ c = ':' ∨ c = '<' ∨ c = '>'

/-- The token sequence of one message under a model's vocabulary. -/
def msgTokens (mc : MarkovChain) (m : Word) : List Nat :=
  (processMessage m).map (fun w => (dget? mc.wordToToken w).getD 0)

/-- The count stored for (context, next token) in the order-k table. -/
def chainCount (mc : MarkovChain) (k : Nat) (ctx : List Nat) (nxt : Nat) : Nat :=
  ((dget? (orderTable mc k) ctx).bind (fun inner => dget? inner nxt)).getD 0

/-- The sum of the counts stored in the context's transition map. -/
def contextTotal (mc : MarkovChain) (k : Nat) (ctx : List Nat) : Nat :=
  (((dget? (orderTable mc k) ctx).getD []).map Prod.snd).sum

/-- The number of positions of a token sequence at which the window of
length |ctx| equals ctx and the token right after it equals nxt. -/
def countCtxNext (tokens ctx : List Nat) (nxt : Nat) : Nat :=
  ((List.range (tokens.length - ctx.length)).filter
    (fun i => decide (ctxAt tokens i ctx.length = ctx ∧
      tokens.getD (i + ctx.length) 0 = nxt))).length

/-- The number of positions at which the window equals ctx and a following
token exists. -/
def countCtxAny (tokens ctx : List Nat) : Nat :=
  ((List.range (tokens.length - ctx.length)).filter
    (fun i => decide (ctxAt tokens i ctx.length = ctx))).length

/-- Chain states reachable from a freshly constructed model by a sequence of
training calls. -/
inductive Reachable : MarkovChain → Prop
  | init (tc : TrainingConfig) (gc : GenerationConfig) :
      Reachable (initChain tc gc)
  | train {mc : MarkovChain} (msgs : List Word) :
      Reachable mc → Reachable (addMessages mc msgs)

/-- The state invariants of a trained model that the save/load round-trip
relies on: consistent vocabulary maps with dense ids assigned in insertion
order, and duplicate-free transition tables with nonempty contexts. -/
def SaveWF (mc : MarkovChain) : Prop :=
  mc.wordToToken ≠ [] ∧
  (dkeys mc.wordToToken).Nodup ∧
  dvalues mc.wordToToken = List.range mc.wordToToken.length ∧
  mc.tokenToWord = mc.wordToToken.map (fun p => (p.2, p.1)) ∧
  mc.vocabularyTokenIds = dvalues mc.wordToToken ∧
  mc.currentTokenId = mc.wordToToken.length ∧
  (dkeys mc.chains).Nodup ∧
  ∀ p ∈ mc.chains, (dkeys p.2).Nodup ∧
    ∀ q ∈ p.2, q.1 ≠ [] ∧ (dkeys q.2).Nodup

/-- The count stored at (context, next) in one raw transition table. -/
def tblCount (tbl : Dict (List Nat) (Dict Nat Nat)) (ctx : List Nat)
    (nxt : Nat) : Nat :=
  ((dget? tbl ctx).bind (fun inner => dget? inner nxt)).getD 0

/-- The sum of all counts stored under one context of a raw table. -/
def tblTotal (tbl : Dict (List Nat) (Dict Nat Nat)) (ctx : List Nat) : Nat :=
  (((dget? tbl ctx).getD []).map Prod.snd).sum

/-- All transition dictionaries have duplicate-free keys, at every level. -/
def TablesWF (cs : Dict Nat (Dict (List Nat) (Dict Nat Nat))) : Prop :=
  (dkeys cs).Nodup ∧ ∀ p ∈ cs, (dkeys p.2).Nodup ∧ ∀ q ∈ p.2, (dkeys q.2).Nodup

/-- The transition-table invariants maintained by training: duplicate-free
keys at every level and nonempty context tuples. -/
def ChainsWF (mc : MarkovChain) : Prop :=
  TablesWF mc.chains ∧ ∀ p ∈ mc.chains, ∀ q ∈ p.2, q.1 ≠ []

/-- The vocabulary bookkeeping invariants maintained by training: values are
exactly 0..n-1 in insertion (first-seen) order, keys are distinct, the
inverse map mirrors the forward map, the id set lists the values, and the
next-id counter is the size. -/
def VocabWF (mc : MarkovChain) : Prop :=
  dvalues mc.wordToToken = List.range mc.wordToToken.length ∧
  (dkeys mc.wordToToken).Nodup ∧
  mc.tokenToWord = mc.wordToToken.map (fun p => (p.2, p.1)) ∧
  mc.vocabularyTokenIds = dvalues mc.wordToToken ∧
  mc.currentTokenId = mc.wordToToken.length

/-- A small trained model used to instantiate theorems with hypotheses on
concrete inputs. -/
def sampleChain : MarkovChain :=
  addMessages (initChain { maxOrder := 2 } defaultGenerationConfig)
    ["hi there".toList, "hi friend".toList]

/-! ## Basic dictionary lemmas -/

theorem dget?_dset {α β : Type} [DecidableEq α] (d : Dict α β) (k : α) (v : β)
    (k' : α) :
    dget? (dset d k v) k' = if k' = k then some v else dget? d k' := by
  induction d with
  | nil => by_cases h : k' = k <;> simp [dset, dget?, h]
  | cons p rest ih =>
    obtain ⟨a, b⟩ := p
    simp only [dset]
    by_cases hk : k = a
    · subst hk
      by_cases h : k' = k <;> simp [dget?, h]
    · rw [if_neg hk]
      by_cases h : k' = a
      · subst h
        have hne : k' ≠ k := fun hc => hk hc.symm
        simp [dget?, hne]
      · simp [dget?, h, ih]

theorem dget?_eq_none_iff {α β : Type} [DecidableEq α] (d : Dict α β) (k : α) :
    dget? d k = none ↔ k ∉ dkeys d := by
  induction d with
  | nil => simp [dget?, dkeys]
  | cons p rest ih =>
    by_cases h : k = p.1
    · simp [dget?, dkeys, h]
    · simp [dget?, dkeys, h, ih]

theorem dget?_append_left {α β : Type} [DecidableEq α] (d d2 : Dict α β)
    (k : α) (v : β) (h : dget? d k = some v) :
    dget? (d ++ d2) k = some v := by
  induction d with
  | nil => simp [dget?] at h
  | cons p rest ih =>
    by_cases hk : k = p.1
    · simp only [List.cons_append, dget?, if_pos hk] at h ⊢
      exact h
    · simp only [List.cons_append, dget?, if_neg hk] at h ⊢
      exact ih h

theorem dset_eq_append {α β : Type} [DecidableEq α] (d : Dict α β) (k : α)
    (v : β) (h : dget? d k = none) : dset d k v = d ++ [(k, v)] := by
  induction d with
  | nil => simp [dset]
  | cons p rest ih =>
    by_cases hk : k = p.1
    · simp [dget?, hk] at h
    · simp only [dget?, if_neg hk] at h
      simp [dset, if_neg hk, ih h]

theorem dkeys_dset {α β : Type} [DecidableEq α] (d : Dict α β) (k : α) (v : β) :
    dkeys (dset d k v) = if k ∈ dkeys d then dkeys d else dkeys d ++ [k] := by
  induction d with
  | nil => simp [dset, dkeys]
  | cons p rest ih =>
    by_cases hk : k = p.1
    · simp [dset, dkeys, hk]
    · simp only [dkeys, dset, if_neg hk, List.map_cons] at ih ⊢
      rw [ih]
      by_cases hm : k ∈ List.map Prod.fst rest
      · rw [if_pos hm, if_pos (List.mem_cons_of_mem _ hm)]
      · rw [if_neg hm, if_neg (by simp [List.mem_cons, hk, hm]), List.cons_append]

theorem dkeys_dset_nodup {α β : Type} [DecidableEq α] (d : Dict α β) (k : α)
    (v : β) (h : (dkeys d).Nodup) : (dkeys (dset d k v)).Nodup := by
  rw [dkeys_dset]
  by_cases hm : k ∈ dkeys d
  · simpa [hm]
  · simp only [hm, if_false]
    simpa [List.nodup_append] using ⟨h, fun hc => hm hc⟩

theorem dget?_mem {α β : Type} [DecidableEq α] (d : Dict α β) (k : α) (v : β)
    (h : dget? d k = some v) : (k, v) ∈ d := by
  induction d with
  | nil => simp [dget?] at h
  | cons p rest ih =>
    by_cases hk : k = p.1
    · simp only [dget?, if_pos hk] at h
      obtain ⟨a, b⟩ := p
      injection h with h
      subst hk
      subst h
      exact List.mem_cons_self _ _
    · simp only [dget?, if_neg hk] at h
      exact List.mem_cons_of_mem _ (ih h)

theorem mem_dget? {α β : Type} [DecidableEq α] (d : Dict α β) (k : α) (v : β)
    (hd : (dkeys d).Nodup) (h : (k, v) ∈ d) : dget? d k = some v := by
  induction d with
  | nil => simp at h
  | cons p rest ih =>
    simp only [dkeys, List.map_cons, List.nodup_cons] at hd
    rcases List.mem_cons.mp h with h1 | h1
    · subst h1
      simp [dget?]
    · have hk : k ≠ p.1 := by
        intro hk
        exact hd.1 (hk ▸ (List.mem_map.mpr ⟨(k, v), h1, rfl⟩))
      simp only [dget?, if_neg hk]
      exact ih hd.2 h1

theorem dget?_of_perm {α β : Type} [DecidableEq α] (d d' : Dict α β)
    (hd : (dkeys d).Nodup) (hp : d.Perm d') (k : α) :
    dget? d' k = dget? d k := by
  have hd' : (dkeys d').Nodup := (hp.map Prod.fst).nodup_iff.mp hd
  cases h : dget? d k with
  | none =>
    rw [dget?_eq_none_iff] at h ⊢
    exact fun hc => h (((hp.map Prod.fst).mem_iff).mpr hc)
  | some v =>
    exact mem_dget? d' k v hd' (hp.mem_iff.mp (dget?_mem d k v h))

theorem dictOfList_go {α β : Type} [DecidableEq α] (l : List (α × β))
    (acc : Dict α β) (hl : (dkeys l).Nodup)
    (hdisj : ∀ p ∈ l, p.1 ∉ dkeys acc) :
    l.foldl (fun d p => dset d p.1 p.2) acc = acc ++ l := by
  induction l generalizing acc with
  | nil => simp
  | cons p rest ih =>
    simp only [dkeys, List.map_cons, List.nodup_cons] at hl
    have hset : dset acc p.1 p.2 = acc ++ [p] := by
      rw [dset_eq_append]
      rw [dget?_eq_none_iff]
      exact hdisj p (List.mem_cons_self _ _)
    simp only [List.foldl_cons, hset]
    rw [ih (acc ++ [p]) hl.2]
    · simp
    · intro q hq
      simp only [dkeys, List.map_append, List.mem_append]
      rintro (hc | hc)
      · exact hdisj q (List.mem_cons_of_mem _ hq) hc
      · simp only [dkeys, List.map_singleton, List.mem_singleton] at hc
        exact hl.1 (hc ▸ List.mem_map.mpr ⟨q, hq, rfl⟩)

theorem dictOfList_self {α β : Type} [DecidableEq α] (l : List (α × β))
    (hl : (dkeys l).Nodup) : dictOfList l = l := by
  have := dictOfList_go l [] hl (by simp [dkeys])
  simpa [dictOfList] using this

/-! ## C6: the character class of the first normalization step -/

/-- C6 counterexample: the source keeps the colon, which is not
alphanumeric, not whitespace and not one of the six characters the
specification lists, so on the input ":" the first step removes nothing
while the claimed class would strip the colon. -/
theorem c6_counterexample :
    stripChars [':'] = [':'] ∧ specKeepChar ':' = false ∧
      stripChars [':'] ≠ List.filter specKeepChar [':'] := by decide

/-- C6 (amended): the first normalization step keeps exactly the characters
that are alphanumeric, an underscore (matched by the regex's \w), ASCII
whitespace, or one of the eight characters ? ! " ' : < > listed in the
regex class, and removes every other character. -/
theorem c6_strip_amended (m : Word) :
    stripChars m = m.filter amendedKeepChar := by
  unfold stripChars
  congr 1
  funext c
  show keepChar c = amendedKeepChar c
  simp only [keepChar, amendedKeepChar, pyIsWordChar, Char.isAlphanum,
    Bool.or_eq_true, decide_eq_decide, decide_eq_true_eq]
  tauto

/-! ## C7: generation before training -/

/-- C7: when the vocabulary is empty, continue_sentence raises the
invalid-state ValueError about the missing vocabulary and returns no
string (the model, being read by a pure function, is unchanged). -/
theorem c7_continue_empty_vocab (mc : MarkovChain) (fuel : Nat) (tape : List ℚ)
    (sentence : Word) (h : mc.wordToToken = []) :
    continueSentence mc fuel tape sentence =
      .error "Model has no vocabulary. Train before generating.".toList := by
  simp [continueSentence, continueSentenceWords, h, Except.map]

/-- C7 witness: an untrained model rejects generation. -/
theorem c7_witness :
    continueSentence (initChain { maxOrder := 2 } defaultGenerationConfig)
        5 [] "hi".toList =
      .error "Model has no vocabulary. Train before generating.".toList :=
  c7_continue_empty_vocab _ 5 [] _ rfl

/-! ## C10: marker tokens survive normalization -/

/-- Every processed message is the start marker, a possibly empty middle
part, and the end marker. -/
theorem processMessage_shape (m : Word) :
    ∃ mid, processMessage m = startMarker :: (mid ++ [endMarker]) := by
  refine ⟨((splitMsg (spacePunct (stripChars m))).filter keepWord).map caseFold, ?_⟩
  have h1 : keepWord startMarker = true := by decide
  have h2 : keepWord endMarker = true := by decide
  have h3 : caseFold startMarker = startMarker := by decide
  have h4 : caseFold endMarker = endMarker := by decide
  simp [processMessage, List.filter_append, List.filter_singleton, h1, h2, h3, h4]

/-- C10: every processed message has at least two tokens, starts with the
start marker and ends with the end marker; hence the token list left in
continue_sentence after dropping the trailing end marker is never empty and
the random-seed branch is unreachable. -/
theorem c10_markers (m : Word) :
    2 ≤ (processMessage m).length ∧
    (processMessage m).head? = some startMarker ∧
    (processMessage m).getLast? = some endMarker ∧
    (processMessage m).dropLast ≠ [] ∧
    ∀ mc : MarkovChain, (processMessage m).dropLast.map (resolveToken mc) ≠ [] := by
  obtain ⟨mid, h⟩ := processMessage_shape m
  rw [h]
  refine ⟨by simp, by simp, ?_, ?_, ?_⟩
  · rw [← List.cons_append, List.getLast?_concat]
  · rw [← List.cons_append, List.dropLast_concat]
    simp
  · intro mc
    rw [← List.cons_append, List.dropLast_concat]
    simp

/-! ## C4: the generation loop respects the length bound -/

/-- The loop never grows the generated list beyond max_length: words are
appended only after the loop condition re-checked that the bound was not yet
reached, and retries append nothing. -/
theorem genLoop_length_le (mc : MarkovChain) (cfg : GenerationConfig)
    (endTok : Nat) (fuel : Nat) (st : GenState)
    (h : st.generated.length ≤ cfg.maxLength) :
    (genLoop mc cfg endTok fuel st).length ≤ cfg.maxLength := by
  induction fuel generalizing st with
  | zero => exact h
  | succ fuel ih =>
    rw [genLoop]
    by_cases hlen : st.generated.length < cfg.maxLength
    · rw [if_pos hlen]
      by_cases hcoin :
          (randDraw st.tape).1 < st.randomizeProbability <;>
        simp only [hcoin, if_true, if_false] <;>
        split <;>
        first
        | exact h
        | (split <;>
            first
            | exact h
            | (split <;>
                first
                | exact h
                | exact ih _ h))
        | exact ih _ (by simpa using hlen)
    · rw [if_neg hlen]
      exact h

/-- C4: for every model with a nonempty vocabulary, every seed, every fuel
and every random tape, continue_sentence returns the space-join of at most
max_length generated words. -/
theorem c4_continue_length (mc : MarkovChain) (fuel : Nat) (tape : List ℚ)
    (sentence : Word) (h : mc.wordToToken ≠ []) :
    ∃ ws : List Word,
      continueSentence mc fuel tape sentence = .ok (List.intercalate [' '] ws) ∧
      ws.length ≤ mc.generationConfig.maxLength := by
  unfold continueSentence continueSentenceWords
  rw [if_neg h]
  exact ⟨_, rfl, genLoop_length_le mc mc.generationConfig _ fuel _ (by simp)⟩

/-- C4 witness: a concrete generation run stays within the bound. -/
theorem c4_witness :
    ∃ ws : List Word,
      continueSentence sampleChain 3 [9/10, 1/2, 9/10, 1/2, 9/10, 1/2]
          "hi".toList = .ok (List.intercalate [' '] ws) ∧
      ws.length ≤ sampleChain.generationConfig.maxLength :=
  c4_continue_length sampleChain 3 [9/10, 1/2, 9/10, 1/2, 9/10, 1/2]
    "hi".toList (by decide)

/-! ## C2: order fallback in prediction -/

/-- If no tried order matches, the descending scan finds nothing. -/
theorem predictFind_none (mc : MarkovChain) (ctx : List Nat) (k : Nat)
    (h : ∀ j ∈ List.range' 1 k,
      dget? (orderTable mc j) (lastTokens ctx j) = none) :
    predictFind mc ctx k = none := by
  induction k with
  | zero => rfl
  | succ k ih =>
    have hk : dget? (orderTable mc (k + 1)) (lastTokens ctx (k + 1)) = none :=
      h (k + 1) (by rw [List.mem_range'_1]; omega)
    simp only [predictFind, hk]
    exact ih (fun j hj => h j (by rw [List.mem_range'_1] at hj ⊢; omega))

/-- The descending scan returns the table of the highest matching order. -/
theorem predictFind_some (mc : MarkovChain) (ctx : List Nat) (k k₀ : Nat)
    (tbl : Dict Nat Nat)
    (h0 : dget? (orderTable mc k₀) (lastTokens ctx k₀) = some tbl)
    (hup : ∀ j ∈ List.range' 1 k, k₀ < j →
      dget? (orderTable mc j) (lastTokens ctx j) = none)
    (hk1 : 1 ≤ k₀) (hk2 : k₀ ≤ k) :
    predictFind mc ctx k = some tbl := by
  induction k with
  | zero => omega
  | succ k ih =>
    by_cases he : k₀ = k + 1
    · subst he
      simp only [predictFind, h0]
    · have hnone : dget? (orderTable mc (k + 1)) (lastTokens ctx (k + 1)) = none :=
        hup (k + 1) (by rw [List.mem_range'_1]; omega) (by omega)
      simp only [predictFind, hnone]
      exact ih
        (fun j hj hlt => hup j (by rw [List.mem_range'_1] at hj ⊢; omega) hlt)
        (by omega)

/-- C2: predict_next_token tries orders min(max_order, |context|) down to 1
with the last k tokens as key and samples (by the weighted pick with the
next draw) from the first matching table; when no tried order matches it
returns a member of the vocabulary id set, chosen by the uniform draw. -/
theorem c2_predict (mc : MarkovChain) (ctx : List Nat) (r : ℚ) (rest : List ℚ) :
    (∀ k₀ ∈ List.range' 1 (Nat.min mc.trainingConfig.maxOrder ctx.length),
      ∀ tbl, dget? (orderTable mc k₀) (lastTokens ctx k₀) = some tbl →
      (∀ j ∈ List.range' 1 (Nat.min mc.trainingConfig.maxOrder ctx.length),
        k₀ < j → dget? (orderTable mc j) (lastTokens ctx j) = none) →
      (predictNextToken mc ctx (r :: rest)).1 = pickRandomly tbl r) ∧
    ((∀ j ∈ List.range' 1 (Nat.min mc.trainingConfig.maxOrder ctx.length),
        dget? (orderTable mc j) (lastTokens ctx j) = none) →
      mc.vocabularyTokenIds ≠ [] → 0 ≤ r → r < 1 →
      (predictNextToken mc ctx (r :: rest)).1 ∈ mc.vocabularyTokenIds) := by
  constructor
  · intro k₀ hk₀ tbl h0 hup
    rw [List.mem_range'_1] at hk₀
    have hf := predictFind_some mc ctx _ k₀ tbl h0 hup (by omega) (by omega)
    simp [predictNextToken, hf, randDraw]
  · intro hnone hvocab hr0 hr1
    have hf := predictFind_none mc ctx _ hnone
    have hlen : 0 < mc.vocabularyTokenIds.length :=
      List.length_pos.mpr hvocab
    have hidx : ⌊r * mc.vocabularyTokenIds.length⌋₊ <
        mc.vocabularyTokenIds.length := by
      rw [Nat.floor_lt (by positivity)]
      calc r * mc.vocabularyTokenIds.length
          < 1 * mc.vocabularyTokenIds.length :=
            mul_lt_mul_of_pos_right hr1 (by exact_mod_cast hlen)
        _ = mc.vocabularyTokenIds.length := one_mul _
    simp only [predictNextToken, hf, getRandomToken, randDraw]
    rw [List.getD_eq_getElem _ 0 hidx]
    exact List.getElem_mem hidx

/-- C2 witness: on the sample model, a matching context is answered from its
order-1 table, and an unseen context falls back into the vocabulary set. -/
theorem c2_witness :
    (predictNextToken sampleChain [1] ((1:ℚ)/2 :: [])).1 =
        pickRandomly [(2, 1), (4, 1)] ((1:ℚ)/2) ∧
    (predictNextToken sampleChain [99] ((1:ℚ)/3 :: [])).1 ∈
        sampleChain.vocabularyTokenIds :=
  ⟨(c2_predict sampleChain [1] ((1:ℚ)/2) []).1 1 (by decide) [(2, 1), (4, 1)]
      (by decide) (by decide),
    (c2_predict sampleChain [99] ((1:ℚ)/3) []).2 (by decide) (by decide)
      (by norm_num) (by norm_num)⟩

/-! ## C5: load error behaviour -/

/-- C5 counterexample: a well-formed JSON document missing the required
word_to_token field makes load raise an uncaught KeyError, not the wrapped
load error the claim promises. -/
theorem c5_counterexample :
    load (some (Json.obj [])) = .error (.keyError "word_to_token".toList) ∧
    load (some (Json.obj [])) ≠ .error .loadError := by decide

/-- C5 (amended): a failure to read or JSON-decode the file is wrapped into
the load ValueError, but a decoded document missing the word_to_token field
raises an uncaught KeyError; load builds the model only in its final
return, so no partially-constructed model is ever produced. -/
theorem c5_load_errors (fields : List (Word × Json))
    (h : dget? fields "word_to_token".toList = none) :
    load none = .error .loadError ∧
    load (some (Json.obj fields)) = .error (.keyError "word_to_token".toList) := by
  refine ⟨rfl, ?_⟩
  have hj : jget (Json.obj fields) "word_to_token".toList =
      .error (.keyError "word_to_token".toList) := by
    simp only [jget, h]
  simp only [load]
  rw [hj]
  rfl

/-- C5 witness: a document holding only the version field. -/
theorem c5_witness :
    load none = .error .loadError ∧
    load (some (Json.obj [("version".toList, Json.num 1)])) =
      .error (.keyError "word_to_token".toList) :=
  c5_load_errors [("version".toList, Json.num 1)] rfl

/-! ## C8: the vocabulary invariant -/

theorem addToChain_wordToToken (mc : MarkovChain) (ws : List Word) :
    (addToChain mc ws).wordToToken = mc.wordToToken := rfl

theorem sortChains_wordToToken (mc : MarkovChain) :
    (sortChains mc).wordToToken = mc.wordToToken := rfl

/-- Registering new words never rebinds an existing word. -/
theorem addAsToken_lookup (mc : MarkovChain) (w' w : Word) (t : Nat)
    (h : dget? mc.wordToToken w = some t) :
    dget? (addAsToken mc w').wordToToken w = some t := by
  unfold addAsToken
  by_cases hp : (dget? mc.wordToToken w').isSome
  · rw [if_pos hp]
    exact h
  · rw [if_neg hp]
    have hnone : dget? mc.wordToToken w' = none := by
      cases hv : dget? mc.wordToToken w'
      · rfl
      · rw [hv] at hp; simp at hp
    show dget? (dset mc.wordToToken w' mc.currentTokenId) w = some t
    rw [dset_eq_append _ _ _ hnone]
    exact dget?_append_left _ _ _ _ h

theorem foldl_addAsToken_lookup (ws : List Word) (mc : MarkovChain)
    (w : Word) (t : Nat) (h : dget? mc.wordToToken w = some t) :
    dget? ((ws.foldl addAsToken mc).wordToToken) w = some t := by
  induction ws generalizing mc with
  | nil => exact h
  | cons w' rest ih => exact ih _ (addAsToken_lookup mc w' w t h)

/-- One whole training call never rebinds an existing word. -/
theorem addMessages_lookup (msgs : List Word) (mc : MarkovChain)
    (w : Word) (t : Nat) (h : dget? mc.wordToToken w = some t) :
    dget? ((addMessages mc msgs).wordToToken) w = some t := by
  unfold addMessages
  rw [sortChains_wordToToken]
  induction msgs generalizing mc with
  | nil => exact h
  | cons m rest ih =>
    rw [List.foldl_cons]
    refine ih _ ?_
    show dget? ((addToChain ((processMessage m).foldl addAsToken mc)
      (processMessage m)).wordToToken) w = some t
    rw [addToChain_wordToToken]
    exact foldl_addAsToken_lookup _ mc w t h

theorem dkeys_map_swap {α β : Type} (l : List (α × β)) :
    dkeys (l.map (fun p => (p.2, p.1))) = dvalues l := by
  simp [dkeys, dvalues, List.map_map]

/-- Registering one word preserves the vocabulary invariants. -/
theorem addAsToken_wf (mc : MarkovChain) (w : Word) (h : VocabWF mc) :
    VocabWF (addAsToken mc w) := by
  obtain ⟨hval, hkey, hinv, hvoc, hcur⟩ := h
  unfold addAsToken
  by_cases hp : (dget? mc.wordToToken w).isSome
  · rw [if_pos hp]
    exact ⟨hval, hkey, hinv, hvoc, hcur⟩
  · rw [if_neg hp]
    have hnone : dget? mc.wordToToken w = none := by
      cases hv : dget? mc.wordToToken w
      · rfl
      · rw [hv] at hp; simp at hp
    have hmem : w ∉ dkeys mc.wordToToken := (dget?_eq_none_iff _ _).mp hnone
    have hset : dset mc.wordToToken w mc.currentTokenId =
        mc.wordToToken ++ [(w, mc.currentTokenId)] :=
      dset_eq_append _ _ _ hnone
    have hinvnone : dget? mc.tokenToWord mc.currentTokenId = none := by
      rw [dget?_eq_none_iff, hinv, dkeys_map_swap, hval, hcur]
      simp
    have hsetinv : dset mc.tokenToWord mc.currentTokenId w =
        mc.tokenToWord ++ [(mc.currentTokenId, w)] :=
      dset_eq_append _ _ _ hinvnone
    have hvocmem : mc.currentTokenId ∉ mc.vocabularyTokenIds := by
      rw [hvoc, hval, hcur]
      simp
    refine ⟨?_, ?_, ?_, ?_, ?_⟩
    · show dvalues (dset mc.wordToToken w mc.currentTokenId) = _
      rw [hset]
      simp only [dvalues, List.map_append, List.map_singleton, List.length_append,
        List.length_singleton]
      rw [show List.map Prod.snd mc.wordToToken = dvalues mc.wordToToken from rfl,
        hval, hcur, List.range_succ]
    · show (dkeys (dset mc.wordToToken w mc.currentTokenId)).Nodup
      rw [hset]
      simp only [dkeys, List.map_append, List.map_singleton]
      rw [show List.map Prod.fst mc.wordToToken = dkeys mc.wordToToken from rfl]
      simp [List.nodup_append, hkey, hmem]
    · show dset mc.tokenToWord mc.currentTokenId w = _
      rw [hsetinv, hset, hinv]
      simp
    · show saddElem mc.vocabularyTokenIds mc.currentTokenId = _
      rw [saddElem, if_neg hvocmem, hset, hvoc]
      simp [dvalues]
    · show mc.currentTokenId + 1 = _
      rw [hset, hcur]
      simp

theorem foldl_addAsToken_wf (ws : List Word) (mc : MarkovChain)
    (h : VocabWF mc) : VocabWF (ws.foldl addAsToken mc) := by
  induction ws generalizing mc with
  | nil => exact h
  | cons w rest ih => exact ih _ (addAsToken_wf mc w h)

theorem addToChain_vocab_eq (mc : MarkovChain) (ws : List Word) :
    VocabWF (addToChain mc ws) ↔ VocabWF mc := Iff.rfl

theorem sortChains_vocab_eq (mc : MarkovChain) :
    VocabWF (sortChains mc) ↔ VocabWF mc := Iff.rfl

theorem addMessages_wf (msgs : List Word) (mc : MarkovChain)
    (h : VocabWF mc) : VocabWF (addMessages mc msgs) := by
  unfold addMessages
  rw [sortChains_vocab_eq]
  induction msgs generalizing mc with
  | nil => exact h
  | cons m rest ih =>
    rw [List.foldl_cons]
    exact ih _ ((addToChain_vocab_eq _ _).mpr (foldl_addAsToken_wf _ mc h))

theorem reachable_vocab_wf (mc : MarkovChain) (h : Reachable mc) :
    VocabWF mc := by
  induction h with
  | init tc gc => exact ⟨rfl, List.nodup_nil, rfl, rfl, rfl⟩
  | train msgs _ ih => exact addMessages_wf msgs _ ih

/-- C8: in every reachable model the vocabulary is a bijection between words
and the dense id range 0..n-1 assigned in first-seen order (distinct keys,
values exactly List.range n in insertion order, the inverse map and the id
set mirroring it, and the next-id counter n), and once a word has an id, any
amount of further training leaves that id unchanged. -/
theorem c8_vocab_invariant (mc : MarkovChain) (h : Reachable mc) :
    VocabWF mc ∧
    ∀ msgs w t, dget? mc.wordToToken w = some t →
      dget? ((addMessages mc msgs).wordToToken) w = some t :=
  ⟨reachable_vocab_wf mc h, fun msgs w t ht => addMessages_lookup msgs mc w t ht⟩

/-- C8 witness: the invariant holds for the concrete trained sample model. -/
theorem c8_witness :
    VocabWF sampleChain ∧
    ∀ msgs w t, dget? sampleChain.wordToToken w = some t →
      dget? ((addMessages sampleChain msgs).wordToToken) w = some t :=
  c8_vocab_invariant sampleChain
    (Reachable.train _ (Reachable.init { maxOrder := 2 } defaultGenerationConfig))

/-! ## C1: transition counts -/

theorem dvalues_sum_dset_succ (d : Dict Nat Nat) (k : Nat) :
    (dvalues (dset d k ((dget? d k).getD 0 + 1))).sum = (dvalues d).sum + 1 := by
  induction d with
  | nil => simp [dset, dget?, dvalues]
  | cons p rest ih =>
    by_cases hk : k = p.1
    · simp [dset, dget?, dvalues, hk]
      omega
    · simp only [dset, if_neg hk, dget?, dvalues, List.map_cons, List.sum_cons] at ih ⊢
      rw [ih]
      omega

theorem mem_dset {α β : Type} [DecidableEq α] (d : Dict α β) (k : α) (v : β)
    (p : α × β) (h : p ∈ dset d k v) : p ∈ d ∨ p = (k, v) := by
  induction d with
  | nil => simpa [dset] using h
  | cons q rest ih =>
    by_cases hk : k = q.1
    · simp only [dset, if_pos hk] at h
      rcases List.mem_cons.mp h with h1 | h1
      · right
        rw [h1, hk]
      · left
        exact List.mem_cons_of_mem _ h1
    · simp only [dset, if_neg hk] at h
      rcases List.mem_cons.mp h with h1 | h1
      · left
        exact h1 ▸ List.mem_cons_self _ _
      · rcases ih h1 with h2 | h2
        · exact Or.inl (List.mem_cons_of_mem _ h2)
        · exact Or.inr h2

/-- The effect of one inner-loop iteration on a stored count. -/
theorem tblCount_bumpEntry (tbl : Dict (List Nat) (Dict Nat Nat))
    (ctx : List Nat) (nxt : Nat) (ctx' : List Nat) (nxt' : Nat) :
    tblCount (bumpEntry tbl ctx nxt) ctx' nxt' =
      tblCount tbl ctx' nxt' + (if ctx' = ctx ∧ nxt' = nxt then 1 else 0) := by
  unfold bumpEntry tblCount
  rw [dget?_dset]
  by_cases hc : ctx' = ctx
  · subst hc
    rw [if_pos rfl, Option.some_bind, dget?_dset]
    by_cases hn : nxt' = nxt
    · subst hn
      rw [if_pos rfl, if_pos ⟨rfl, rfl⟩]
      cases hs : dget? tbl ctx' <;> simp [hs, dget?]
    · rw [if_neg hn, if_neg (by tauto)]
      cases hs : dget? tbl ctx' <;> simp [hs, dget?, hn]
  · rw [if_neg hc, if_neg (by tauto)]
    simp

/-- The effect of one inner-loop iteration on a context's total count. -/
theorem tblTotal_bumpEntry (tbl : Dict (List Nat) (Dict Nat Nat))
    (ctx : List Nat) (nxt : Nat) (ctx' : List Nat) :
    tblTotal (bumpEntry tbl ctx nxt) ctx' =
      tblTotal tbl ctx' + (if ctx' = ctx then 1 else 0) := by
  unfold bumpEntry tblTotal
  rw [dget?_dset]
  by_cases hc : ctx' = ctx
  · rw [if_pos hc, if_pos hc, hc, Option.getD_some]
    exact dvalues_sum_dset_succ _ _
  · rw [if_neg hc, if_neg hc]
    simp

/-- One inner-loop iteration keeps all dictionary keys duplicate-free. -/
theorem bumpEntry_wf (tbl : Dict (List Nat) (Dict Nat Nat))
    (ctx : List Nat) (nxt : Nat)
    (h1 : (dkeys tbl).Nodup) (h2 : ∀ q ∈ tbl, (dkeys q.2).Nodup) :
    (dkeys (bumpEntry tbl ctx nxt)).Nodup ∧
      ∀ q ∈ bumpEntry tbl ctx nxt, (dkeys q.2).Nodup := by
  constructor
  · exact dkeys_dset_nodup _ _ _ h1
  · intro q hq
    rcases mem_dset _ _ _ _ hq with hm | hm
    · exact h2 q hm
    · rw [hm]
      apply dkeys_dset_nodup
      cases hs : dget? tbl ctx with
      | none => simp [dkeys]
      | some inner =>
        simp only [Option.getD_some]
        exact h2 _ (dget?_mem _ _ _ hs)

/-- Scanning the first n positions adds exactly the number of matching
positions among them to the (ctx, nxt) count. -/
theorem tblCount_bumpRange (tokens : List Nat) (order : Nat)
    (tbl : Dict (List Nat) (Dict Nat Nat)) (ctx : List Nat) (nxt : Nat)
    (n : Nat) :
    tblCount ((List.range n).foldl
        (fun t i => bumpEntry t (ctxAt tokens i order) (tokens.getD (i + order) 0))
        tbl) ctx nxt =
      tblCount tbl ctx nxt +
        ((List.range n).filter (fun i => decide (ctxAt tokens i order = ctx ∧
          tokens.getD (i + order) 0 = nxt))).length := by
  induction n with
  | zero => simp
  | succ n ih =>
    rw [List.range_succ, List.foldl_append, List.filter_append, List.foldl_cons,
      List.foldl_nil, tblCount_bumpEntry, ih, List.length_append]
    have hf : ∀ f : Nat → Bool, (List.filter f [n]).length =
        if f n = true then 1 else 0 := by
      intro f
      cases hfn : f n <;> simp [List.filter, hfn]
    rw [hf]
    simp only [decide_eq_true_eq]
    by_cases h1 : ctxAt tokens n order = ctx
    · by_cases h2 : tokens.getD (n + order) 0 = nxt
      · rw [if_pos ⟨h1.symm, h2.symm⟩, if_pos ⟨h1, h2⟩]
        omega
      · rw [if_neg (fun hc => h2 hc.2.symm), if_neg (fun hc => h2 hc.2)]
        omega
    · rw [if_neg (fun hc => h1 hc.1.symm), if_neg (fun hc => h1 hc.1)]
      omega

/-- Scanning the first n positions adds the number of context matches among
them to the context's total. -/
theorem tblTotal_bumpRange (tokens : List Nat) (order : Nat)
    (tbl : Dict (List Nat) (Dict Nat Nat)) (ctx : List Nat) (n : Nat) :
    tblTotal ((List.range n).foldl
        (fun t i => bumpEntry t (ctxAt tokens i order) (tokens.getD (i + order) 0))
        tbl) ctx =
      tblTotal tbl ctx +
        ((List.range n).filter (fun i => decide (ctxAt tokens i order = ctx))).length := by
  induction n with
  | zero => simp
  | succ n ih =>
    rw [List.range_succ, List.foldl_append, List.filter_append, List.foldl_cons,
      List.foldl_nil, tblTotal_bumpEntry, ih, List.length_append]
    have hf : ∀ f : Nat → Bool, (List.filter f [n]).length =
        if f n = true then 1 else 0 := by
      intro f
      cases hfn : f n <;> simp [List.filter, hfn]
    rw [hf]
    simp only [decide_eq_true_eq]
    by_cases h1 : ctxAt tokens n order = ctx
    · rw [if_pos h1.symm, if_pos h1]
      omega
    · rw [if_neg (fun hc => h1 hc.symm), if_neg h1]
      omega

theorem bumpRange_wf (tokens : List Nat) (order : Nat)
    (tbl : Dict (List Nat) (Dict Nat Nat)) (n : Nat)
    (h1 : (dkeys tbl).Nodup) (h2 : ∀ q ∈ tbl, (dkeys q.2).Nodup) :
    (dkeys ((List.range n).foldl
        (fun t i => bumpEntry t (ctxAt tokens i order) (tokens.getD (i + order) 0))
        tbl)).Nodup ∧
      ∀ q ∈ (List.range n).foldl
        (fun t i => bumpEntry t (ctxAt tokens i order) (tokens.getD (i + order) 0))
        tbl, (dkeys q.2).Nodup := by
  induction n with
  | zero => exact ⟨h1, h2⟩
  | succ n ih =>
    rw [List.range_succ, List.foldl_append, List.foldl_cons, List.foldl_nil]
    exact bumpEntry_wf _ _ _ ih.1 ih.2

/-- The inner loop over one order adds exactly the occurrence counts of the
scanned token sequence (for contexts of that order's length). -/
theorem tblCount_addOrderChain (tokens : List Nat) (ctx : List Nat)
    (nxt : Nat) (tbl : Dict (List Nat) (Dict Nat Nat)) :
    tblCount (addOrderChain tokens ctx.length tbl) ctx nxt =
      tblCount tbl ctx nxt + countCtxNext tokens ctx nxt :=
  tblCount_bumpRange tokens ctx.length tbl ctx nxt _

theorem tblTotal_addOrderChain (tokens : List Nat) (ctx : List Nat)
    (tbl : Dict (List Nat) (Dict Nat Nat)) :
    tblTotal (addOrderChain tokens ctx.length tbl) ctx =
      tblTotal tbl ctx + countCtxAny tokens ctx :=
  tblTotal_bumpRange tokens ctx.length tbl ctx _

/-- The per-order fold of _add_to_chain rebuilds exactly the tables of the
orders in the list and leaves all other entries alone. -/
theorem dget?_orderFold (tokens : List Nat) (L : List Nat)
    (cs : Dict Nat (Dict (List Nat) (Dict Nat Nat))) (hL : L.Nodup) (k : Nat) :
    dget? (L.foldl (fun cs order =>
        dset cs order (addOrderChain tokens order ((dget? cs order).getD []))) cs) k =
      if k ∈ L then some (addOrderChain tokens k ((dget? cs k).getD []))
      else dget? cs k := by
  induction L generalizing cs with
  | nil => simp
  | cons o rest ih =>
    rw [List.nodup_cons] at hL
    rw [List.foldl_cons, ih _ hL.2]
    by_cases hk : k = o
    · subst hk
      rw [if_neg (fun hc => hL.1 hc), if_pos (List.mem_cons_self _ _),
        dget?_dset, if_pos rfl]
    · by_cases hmem : k ∈ rest
      · rw [if_pos hmem, if_pos (List.mem_cons_of_mem _ hmem), dget?_dset,
          if_neg hk]
      · rw [if_neg hmem, if_neg (by simp [hk, hmem]), dget?_dset, if_neg hk]

theorem addAsToken_chains (mc : MarkovChain) (w : Word) :
    (addAsToken mc w).chains = mc.chains := by
  unfold addAsToken
  split <;> rfl

theorem addAsToken_trainingConfig (mc : MarkovChain) (w : Word) :
    (addAsToken mc w).trainingConfig = mc.trainingConfig := by
  unfold addAsToken
  split <;> rfl

theorem foldl_addAsToken_chains (ws : List Word) (mc : MarkovChain) :
    ((ws.foldl addAsToken mc)).chains = mc.chains := by
  induction ws generalizing mc with
  | nil => rfl
  | cons w rest ih => rw [List.foldl_cons, ih, addAsToken_chains]

theorem foldl_addAsToken_trainingConfig (ws : List Word) (mc : MarkovChain) :
    ((ws.foldl addAsToken mc)).trainingConfig = mc.trainingConfig := by
  induction ws generalizing mc with
  | nil => rfl
  | cons w rest ih => rw [List.foldl_cons, ih, addAsToken_trainingConfig]

theorem trainStep_trainingConfig (mc : MarkovChain) (msg : Word) :
    (trainStep mc msg).trainingConfig = mc.trainingConfig := by
  show (addToChain _ _).trainingConfig = _
  rw [show ∀ (m : MarkovChain) (ws : List Word),
      (addToChain m ws).trainingConfig = m.trainingConfig from fun _ _ => rfl]
  exact foldl_addAsToken_trainingConfig _ mc

theorem trainFold_trainingConfig (msgs : List Word) (mc : MarkovChain) :
    ((msgs.foldl trainStep mc)).trainingConfig = mc.trainingConfig := by
  induction msgs generalizing mc with
  | nil => rfl
  | cons m rest ih => rw [List.foldl_cons, ih, trainStep_trainingConfig]

theorem trainStep_wordToToken (mc : MarkovChain) (msg : Word) :
    (trainStep mc msg).wordToToken =
      (((processMessage msg).foldl addAsToken mc)).wordToToken := rfl

/-- The order-k table of the state after _add_to_chain. -/
theorem orderTable_addToChain (mc : MarkovChain) (ws : List Word) (k : Nat)
    (hk1 : 1 ≤ k) (hk2 : k ≤ mc.trainingConfig.maxOrder) :
    orderTable (addToChain mc ws) k =
      addOrderChain (ws.map (fun w => (dget? mc.wordToToken w).getD 0)) k
        (orderTable mc k) := by
  show ((dget? ((List.range' 1 mc.trainingConfig.maxOrder).foldl
      (fun cs order =>
        dset cs order (addOrderChain
          (ws.map (fun w => (dget? mc.wordToToken w).getD 0)) order
          ((dget? cs order).getD []))) mc.chains) k).getD []) = _
  rw [dget?_orderFold _ _ _ (List.nodup_range' 1 _) k,
    if_pos (by rw [List.mem_range'_1]; omega)]
  rfl

theorem orderFold_wf (tokens : List Nat) (L : List Nat)
    (cs : Dict Nat (Dict (List Nat) (Dict Nat Nat))) (h : TablesWF cs) :
    TablesWF (L.foldl (fun cs order =>
      dset cs order (addOrderChain tokens order ((dget? cs order).getD []))) cs) := by
  induction L generalizing cs with
  | nil => exact h
  | cons o rest ih =>
    rw [List.foldl_cons]
    refine ih _ ?_
    obtain ⟨houter, hinner⟩ := h
    constructor
    · exact dkeys_dset_nodup _ _ _ houter
    · intro p hp
      rcases mem_dset _ _ _ _ hp with hm | hm
      · exact hinner p hm
      · rw [hm]
        have hbase : (dkeys ((dget? cs o).getD [])).Nodup ∧
            ∀ q ∈ (dget? cs o).getD [], (dkeys q.2).Nodup := by
          cases hs : dget? cs o with
          | none => simp [dkeys]
          | some tbl =>
            simp only [Option.getD_some]
            exact hinner _ (dget?_mem _ _ _ hs)
        exact bumpRange_wf tokens o _ _ hbase.1 hbase.2

theorem addToChain_tableswf (mc : MarkovChain) (ws : List Word)
    (h : TablesWF mc.chains) : TablesWF ((addToChain mc ws).chains) := by
  show TablesWF ((List.range' 1 mc.trainingConfig.maxOrder).foldl
    (fun cs order =>
      dset cs order (addOrderChain
        (ws.map (fun w => (dget? mc.wordToToken w).getD 0)) order
        ((dget? cs order).getD []))) mc.chains)
  exact orderFold_wf _ _ _ h

theorem chainCount_eq_tbl (mc : MarkovChain) (k : Nat) (ctx : List Nat)
    (nxt : Nat) : chainCount mc k ctx nxt = tblCount (orderTable mc k) ctx nxt := rfl

theorem contextTotal_eq_tbl (mc : MarkovChain) (k : Nat) (ctx : List Nat) :
    contextTotal mc k ctx = tblTotal (orderTable mc k) ctx := rfl

/-- One message's training step adds that message's occurrence counts,
evaluated in the vocabulary as of that step. -/
theorem chainCount_trainStep (mc : MarkovChain) (msg : Word) (k : Nat)
    (ctx : List Nat) (nxt : Nat) (hk1 : 1 ≤ k)
    (hk2 : k ≤ mc.trainingConfig.maxOrder) (hlen : ctx.length = k) :
    chainCount (trainStep mc msg) k ctx nxt =
      chainCount mc k ctx nxt +
        countCtxNext (msgTokens (trainStep mc msg) msg) ctx nxt := by
  have hst := foldl_addAsToken_chains (processMessage msg) mc
  have hcfg := foldl_addAsToken_trainingConfig (processMessage msg) mc
  rw [chainCount_eq_tbl, chainCount_eq_tbl]
  show tblCount (orderTable (addToChain ((processMessage msg).foldl addAsToken mc)
    (processMessage msg)) k) ctx nxt = _
  rw [orderTable_addToChain _ _ k hk1 (by rw [hcfg]; exact hk2)]
  have hot : orderTable ((processMessage msg).foldl addAsToken mc) k =
      orderTable mc k := by
    unfold orderTable
    rw [hst]
  rw [hot]
  subst hlen
  rw [tblCount_addOrderChain]
  rfl

theorem contextTotal_trainStep (mc : MarkovChain) (msg : Word) (k : Nat)
    (ctx : List Nat) (hk1 : 1 ≤ k)
    (hk2 : k ≤ mc.trainingConfig.maxOrder) (hlen : ctx.length = k) :
    contextTotal (trainStep mc msg) k ctx =
      contextTotal mc k ctx +
        countCtxAny (msgTokens (trainStep mc msg) msg) ctx := by
  have hst := foldl_addAsToken_chains (processMessage msg) mc
  have hcfg := foldl_addAsToken_trainingConfig (processMessage msg) mc
  rw [contextTotal_eq_tbl, contextTotal_eq_tbl]
  show tblTotal (orderTable (addToChain ((processMessage msg).foldl addAsToken mc)
    (processMessage msg)) k) ctx = _
  rw [orderTable_addToChain _ _ k hk1 (by rw [hcfg]; exact hk2)]
  have hot : orderTable ((processMessage msg).foldl addAsToken mc) k =
      orderTable mc k := by
    unfold orderTable
    rw [hst]
  rw [hot]
  subst hlen
  rw [tblTotal_addOrderChain]
  rfl

theorem trainStep_tableswf (mc : MarkovChain) (msg : Word)
    (h : TablesWF mc.chains) : TablesWF ((trainStep mc msg).chains) := by
  refine addToChain_tableswf _ _ ?_
  rw [foldl_addAsToken_chains]
  exact h

theorem trainFold_tableswf (msgs : List Word) (mc : MarkovChain)
    (h : TablesWF mc.chains) : TablesWF ((msgs.foldl trainStep mc).chains) := by
  induction msgs generalizing mc with
  | nil => exact h
  | cons m rest ih =>
    rw [List.foldl_cons]
    exact ih _ (trainStep_tableswf mc m h)

/-- The lookup of a word present in the model is stable under further
training steps. -/
theorem trainFold_lookup (msgs : List Word) (mc : MarkovChain) (w : Word)
    (t : Nat) (h : dget? mc.wordToToken w = some t) :
    dget? ((msgs.foldl trainStep mc).wordToToken) w = some t := by
  induction msgs generalizing mc with
  | nil => exact h
  | cons m rest ih =>
    rw [List.foldl_cons]
    refine ih _ ?_
    rw [trainStep_wordToToken]
    exact foldl_addAsToken_lookup _ mc w t h

/-- Every word of a scanned list is present after the word-registration
fold. -/
theorem foldl_addAsToken_self_mem (ws : List Word) (mc : MarkovChain)
    (w : Word) (hw : w ∈ ws) :
    ∃ t, dget? ((ws.foldl addAsToken mc).wordToToken) w = some t := by
  induction ws generalizing mc with
  | nil => cases hw
  | cons w' rest ih =>
    rw [List.foldl_cons]
    rcases List.mem_cons.mp hw with h1 | h1
    · subst h1
      have hself : ∃ t, dget? ((addAsToken mc w).wordToToken) w = some t := by
        unfold addAsToken
        by_cases hp : (dget? mc.wordToToken w).isSome
        · rw [if_pos hp]
          exact ⟨(dget? mc.wordToToken w).get hp, Option.eq_some_of_isSome hp⟩
        · rw [if_neg hp]
          have hnone : dget? mc.wordToToken w = none := by
            cases hv : dget? mc.wordToToken w
            · rfl
            · rw [hv] at hp; simp at hp
          exact ⟨mc.currentTokenId, by
            show dget? (dset mc.wordToToken w mc.currentTokenId) w = _
            rw [dget?_dset, if_pos rfl]⟩
      obtain ⟨t, ht⟩ := hself
      exact ⟨t, foldl_addAsToken_lookup rest _ w t ht⟩
    · exact ih _ h1

/-- All words of a message are present in the model right after its
training step. -/
theorem trainStep_self_mem (mc : MarkovChain) (msg : Word) (w : Word)
    (hw : w ∈ processMessage msg) :
    ∃ t, dget? ((trainStep mc msg).wordToToken) w = some t := by
  rw [trainStep_wordToToken]
  exact foldl_addAsToken_self_mem _ mc w hw

/-- Token sequences of already-registered messages are unaffected by later
training. -/
theorem msgTokens_stable (msgs : List Word) (mc : MarkovChain) (m : Word)
    (h : ∀ w ∈ processMessage m, ∃ t, dget? mc.wordToToken w = some t) :
    msgTokens (msgs.foldl trainStep mc) m = msgTokens mc m := by
  unfold msgTokens
  refine List.map_congr_left ?_
  intro w hw
  obtain ⟨t, ht⟩ := h w hw
  rw [ht, trainFold_lookup msgs mc w t ht]

/-- The whole message loop accumulates, per message, the occurrence counts
of its token sequence as read in the final vocabulary. -/
theorem chainCount_trainFold (msgs : List Word) (mc : MarkovChain) (k : Nat)
    (ctx : List Nat) (nxt : Nat) (hk1 : 1 ≤ k)
    (hk2 : k ≤ mc.trainingConfig.maxOrder) (hlen : ctx.length = k) :
    chainCount (msgs.foldl trainStep mc) k ctx nxt =
      chainCount mc k ctx nxt +
        (msgs.map (fun m =>
          countCtxNext (msgTokens (msgs.foldl trainStep mc) m) ctx nxt)).sum := by
  induction msgs generalizing mc with
  | nil => simp
  | cons m rest ih =>
    rw [List.foldl_cons, List.map_cons, List.sum_cons]
    rw [ih (trainStep mc m) (by rw [trainStep_trainingConfig]; exact hk2)]
    have hstable : msgTokens (rest.foldl trainStep (trainStep mc m)) m =
        msgTokens (trainStep mc m) m :=
      msgTokens_stable rest (trainStep mc m) m (trainStep_self_mem mc m)
    rw [hstable, chainCount_trainStep mc m k ctx nxt hk1 hk2 hlen]
    omega

theorem contextTotal_trainFold (msgs : List Word) (mc : MarkovChain) (k : Nat)
    (ctx : List Nat) (hk1 : 1 ≤ k)
    (hk2 : k ≤ mc.trainingConfig.maxOrder) (hlen : ctx.length = k) :
    contextTotal (msgs.foldl trainStep mc) k ctx =
      contextTotal mc k ctx +
        (msgs.map (fun m =>
          countCtxAny (msgTokens (msgs.foldl trainStep mc) m) ctx)).sum := by
  induction msgs generalizing mc with
  | nil => simp
  | cons m rest ih =>
    rw [List.foldl_cons, List.map_cons, List.sum_cons]
    rw [ih (trainStep mc m) (by rw [trainStep_trainingConfig]; exact hk2)]
    have hstable : msgTokens (rest.foldl trainStep (trainStep mc m)) m =
        msgTokens (trainStep mc m) m :=
      msgTokens_stable rest (trainStep mc m) m (trainStep_self_mem mc m)
    rw [hstable, contextTotal_trainStep mc m k ctx hk1 hk2 hlen]
    omega

theorem dget?_map_snd {α β γ : Type} [DecidableEq α] (l : Dict α β)
    (f : β → γ) (k : α) :
    dget? (l.map (fun p => (p.1, f p.2))) k = (dget? l k).map f := by
  induction l with
  | nil => rfl
  | cons p rest ih =>
    by_cases hk : k = p.1 <;> simp [dget?, hk, ih]

theorem insertDesc_perm (p : Nat × Nat) (d : Dict Nat Nat) :
    (insertDesc p d).Perm (p :: d) := by
  induction d with
  | nil => exact List.Perm.refl _
  | cons q rest ih =>
    unfold insertDesc
    by_cases h : q.2 > p.2
    · rw [if_pos h]
      exact (ih.cons q).trans (List.Perm.swap p q rest)
    · rw [if_neg h]

theorem sortCountsDesc_perm (d : Dict Nat Nat) : (sortCountsDesc d).Perm d := by
  unfold sortCountsDesc
  induction d with
  | nil => exact List.Perm.refl _
  | cons p rest ih =>
    rw [List.foldr_cons]
    exact (insertDesc_perm p _).trans (ih.cons p)

theorem dget?_sortCountsDesc (d : Dict Nat Nat) (hd : (dkeys d).Nodup)
    (k : Nat) : dget? (sortCountsDesc d) k = dget? d k :=
  dget?_of_perm d _ hd (sortCountsDesc_perm d).symm k

/-- Re-sorting the transition maps does not change any stored count. -/
theorem chainCount_sortChains (mc : MarkovChain) (h : TablesWF mc.chains)
    (k : Nat) (ctx : List Nat) (nxt : Nat) :
    chainCount (sortChains mc) k ctx nxt = chainCount mc k ctx nxt := by
  obtain ⟨houter, hinner⟩ := h
  rw [chainCount_eq_tbl, chainCount_eq_tbl]
  unfold tblCount orderTable sortChains
  simp only
  rw [dget?_map_snd]
  cases hs : dget? mc.chains k with
  | none => simp
  | some tbl =>
    simp only [Option.map_some', Option.getD_some]
    rw [dget?_map_snd]
    cases hc : dget? tbl ctx with
    | none => simp
    | some inner =>
      simp only [Option.map_some', Option.some_bind]
      rw [dget?_sortCountsDesc inner
        ((hinner _ (dget?_mem _ _ _ hs)).2 _ (dget?_mem _ _ _ hc))]

/-- Re-sorting does not change any context's total count either. -/
theorem contextTotal_sortChains (mc : MarkovChain) (_h : TablesWF mc.chains)
    (k : Nat) (ctx : List Nat) :
    contextTotal (sortChains mc) k ctx = contextTotal mc k ctx := by
  rw [contextTotal_eq_tbl, contextTotal_eq_tbl]
  unfold tblTotal orderTable sortChains
  simp only
  rw [dget?_map_snd]
  cases hs : dget? mc.chains k with
  | none => simp
  | some tbl =>
    simp only [Option.map_some', Option.getD_some]
    rw [dget?_map_snd]
    cases hc : dget? tbl ctx with
    | none => simp
    | some inner =>
      simp only [Option.map_some', Option.getD_some]
      exact ((sortCountsDesc_perm inner).map Prod.snd).sum_eq

theorem msgTokens_sortChains (mc : MarkovChain) (m : Word) :
    msgTokens (sortChains mc) m = msgTokens mc m := rfl

/-- C1: after training a fresh model on any message list, the order-k table
holds, at every context of length k and every next token, exactly the total
number of positions of the normalized messages where that context window is
followed by that token; and every context's counts sum to the number of
occurrences of the context followed by any token. -/
theorem c1_transition_counts (tc : TrainingConfig) (gc : GenerationConfig)
    (msgs : List Word) (k : Nat) (ctx : List Nat) (nxt : Nat)
    (hk1 : 1 ≤ k) (hk2 : k ≤ tc.maxOrder) (hlen : ctx.length = k) :
    chainCount (addMessages (initChain tc gc) msgs) k ctx nxt =
      (msgs.map (fun m =>
        countCtxNext (msgTokens (addMessages (initChain tc gc) msgs) m) ctx nxt)).sum ∧
    contextTotal (addMessages (initChain tc gc) msgs) k ctx =
      (msgs.map (fun m =>
        countCtxAny (msgTokens (addMessages (initChain tc gc) msgs) m) ctx)).sum := by
  have hwf : TablesWF ((msgs.foldl trainStep (initChain tc gc)).chains) :=
    trainFold_tableswf msgs _ ⟨List.nodup_nil, by intro p hp; cases hp⟩
  unfold addMessages
  constructor
  · rw [chainCount_sortChains _ hwf]
    have := chainCount_trainFold msgs (initChain tc gc) k ctx nxt hk1 hk2 hlen
    rw [show chainCount (initChain tc gc) k ctx nxt = 0 from rfl, Nat.zero_add] at this
    rw [this]
    rfl
  · rw [contextTotal_sortChains _ hwf]
    have := contextTotal_trainFold msgs (initChain tc gc) k ctx hk1 hk2 hlen
    rw [show contextTotal (initChain tc gc) k ctx = 0 from rfl, Nat.zero_add] at this
    rw [this]
    rfl

/-- C1 witness: the concrete counts of the sample corpus. -/
theorem c1_witness :
    chainCount (addMessages (initChain { maxOrder := 2 } defaultGenerationConfig)
        ["hi there".toList, "hi friend".toList]) 1 [1] 2 =
      (["hi there".toList, "hi friend".toList].map (fun m =>
        countCtxNext (msgTokens (addMessages
          (initChain { maxOrder := 2 } defaultGenerationConfig)
          ["hi there".toList, "hi friend".toList]) m) [1] 2)).sum ∧
    contextTotal (addMessages (initChain { maxOrder := 2 } defaultGenerationConfig)
        ["hi there".toList, "hi friend".toList]) 1 [1] =
      (["hi there".toList, "hi friend".toList].map (fun m =>
        countCtxAny (msgTokens (addMessages
          (initChain { maxOrder := 2 } defaultGenerationConfig)
          ["hi there".toList, "hi friend".toList]) m) [1])).sum :=
  c1_transition_counts { maxOrder := 2 } defaultGenerationConfig
    ["hi there".toList, "hi friend".toList] 1 [1] 2
    (by decide) (by decide) (by decide)

/-! ## C3: save/load round trip -/

theorem natDigitsAux_lt_ten (fuel n : Nat) (hfn : n ≤ fuel) :
    ∀ d ∈ natDigitsAux fuel n, d < 10 := by
  induction fuel generalizing n with
  | zero =>
    intro d hd
    simp only [natDigitsAux, List.mem_singleton] at hd
    omega
  | succ fuel ih =>
    intro d hd
    by_cases h : n < 10
    · simp only [natDigitsAux, if_pos h, List.mem_singleton] at hd
      omega
    · simp only [natDigitsAux, if_neg h, List.mem_append,
        List.mem_singleton] at hd
      rcases hd with hd | hd
      · exact ih (n / 10) (by omega) d hd
      · omega

theorem digitVal_digitChar (d : Nat) (hd : d < 10) :
    digitVal (Char.ofNat (48 + d)) = some d := by
  interval_cases d <;> decide

theorem digitChar_ne_comma (d : Nat) (hd : d < 10) :
    Char.ofNat (48 + d) ≠ ',' := by
  interval_cases d <;> decide

theorem natDigitsAux_ne_nil (fuel n : Nat) : natDigitsAux fuel n ≠ [] := by
  cases fuel with
  | zero => simp [natDigitsAux]
  | succ fuel =>
    by_cases h : n < 10 <;> simp [natDigitsAux, h]

theorem natToWord_ne_nil (n : Nat) : natToWord n ≠ [] := by
  unfold natToWord natDigits
  simp [natDigitsAux_ne_nil]

theorem comma_not_mem_natToWord (n : Nat) : ',' ∉ natToWord n := by
  unfold natToWord
  intro hc
  obtain ⟨d, hd, hchr⟩ := List.mem_map.mp hc
  exact digitChar_ne_comma d (natDigitsAux_lt_ten n n le_rfl d hd) hchr

theorem parseDigits_natDigitsAux (fuel n a : Nat) (hfn : n ≤ fuel) :
    List.foldl (fun acc c => acc.bind (fun x =>
        (digitVal c).map (fun d => x * 10 + d))) (some a)
      ((natDigitsAux fuel n).map (fun d => Char.ofNat (48 + d))) =
      some (a * 10 ^ (natDigitsAux fuel n).length + n) := by
  induction fuel generalizing n a with
  | zero =>
    have hn : n = 0 := by omega
    subst hn
    simp [natDigitsAux, digitVal_digitChar 0 (by omega)]
  | succ fuel ih =>
    by_cases h : n < 10
    · simp [natDigitsAux, if_pos h, digitVal_digitChar n h]
    · simp only [natDigitsAux, if_neg h, List.map_append, List.map_singleton,
        List.foldl_append, List.foldl_cons, List.foldl_nil]
      rw [ih (n / 10) a (by omega)]
      simp only [Option.some_bind]
      rw [digitVal_digitChar (n % 10) (by omega)]
      simp only [Option.map_some']
      congr 1
      rw [List.length_append, List.length_singleton, pow_succ]
      have hdm : 10 * (n / 10) + n % 10 = n := Nat.div_add_mod n 10
      ring_nf
      omega

/-- Python int(str(n)) recovers n. -/
theorem parsePyNat_natToWord (n : Nat) : parsePyNat (natToWord n) = .ok n := by
  have hne := natToWord_ne_nil n
  have hfold := parseDigits_natDigitsAux n n 0 le_rfl
  unfold parsePyNat parseDigits
  cases hw : natToWord n with
  | nil => exact absurd hw hne
  | cons c rest =>
    unfold natToWord at hw
    rw [show (List.foldl (fun acc c => acc.bind (fun x =>
        (digitVal c).map (fun d => x * 10 + d))) (some 0) (c :: rest)) =
        some (0 * 10 ^ (natDigitsAux n n).length + n) from hw ▸ hfold]
    simp

theorem mapE_ok_of_forall {α β : Type} (f : α → Except PyErr β) (g : α → β)
    (l : List α) (h : ∀ x ∈ l, f x = .ok (g x)) :
    mapE f l = .ok (l.map g) := by
  induction l with
  | nil => rfl
  | cons a rest ih =>
    have ha : f a = .ok (g a) := h a (List.mem_cons_self _ _)
    have hr : mapE f rest = .ok (rest.map g) :=
      ih (fun x hx => h x (List.mem_cons_of_mem _ hx))
    show (do
      let b ← f a
      let bs ← mapE f rest
      pure (b :: bs) : Except PyErr (List β)) = _
    rw [ha, hr]
    rfl

theorem dedupKeep_of_nodup (l : List Nat) (seen : List Nat) (hl : l.Nodup)
    (hdisj : ∀ x ∈ l, x ∉ seen) : dedupKeep l seen = l := by
  induction l generalizing seen with
  | nil => rfl
  | cons x rest ih =>
    rw [List.nodup_cons] at hl
    unfold dedupKeep
    rw [if_neg (hdisj x (List.mem_cons_self _ _))]
    rw [ih _ hl.2]
    intro y hy
    simp only [List.mem_cons]
    rintro (hc | hc)
    · exact hl.1 (hc ▸ hy)
    · exact hdisj y (List.mem_cons_of_mem _ hy) hc

theorem foldl_max_range' (k a m : Nat) :
    (List.range' a (k + 1)).foldl Nat.max m = Nat.max m (a + k) := by
  induction k generalizing a m with
  | zero => simp [List.range']
  | succ k ih =>
    rw [show List.range' a (k + 2) = a :: List.range' (a + 1) (k + 1) from rfl,
      List.foldl_cons, ih]
    simp only [Nat.max_def]
    split_ifs <;> omega

/-- Python max over the dense id range 0..n-1 is n-1. -/
theorem pyMaxList_range (n : Nat) :
    pyMaxList (List.range (n + 1)) = .ok n := by
  have : List.range (n + 1) = 0 :: List.range' 1 n := by
    rw [List.range_eq_range']
    rfl
  rw [this]
  cases n with
  | zero => rfl
  | succ n =>
    show Except.ok ((List.range' 1 (n + 1)).foldl Nat.max 0) = _
    rw [foldl_max_range' n 1 0]
    congr 1
    simp only [Nat.max_def]
    split_ifs <;> omega

theorem mapE_map_ok {α β γ : Type} (f : β → Except PyErr γ) (g : α → β)
    (k : α → γ) (l : List α) (h : ∀ x ∈ l, f (g x) = .ok (k x)) :
    mapE f (l.map g) = .ok (l.map k) := by
  induction l with
  | nil => rfl
  | cons a rest ih =>
    rw [List.map_cons, List.map_cons]
    show (do
      let b ← f (g a)
      let bs ← mapE f (rest.map g)
      pure (b :: bs) : Except PyErr (List γ)) = _
    rw [h a (List.mem_cons_self _ _),
      ih (fun x hx => h x (List.mem_cons_of_mem _ hx))]
    rfl

theorem ebind_ok {α β : Type} (a : α) (f : α → Except PyErr β) :
    ((Except.ok a : Except PyErr α) >>= f) = f a := rfl

theorem epure_eq {α : Type} (a : α) : (pure a : Except PyErr α) = .ok a := rfl

theorem jitems_obj (fields : List (Word × Json)) :
    jitems (Json.obj fields) = .ok fields := rfl

/-- Splitting a serialized context key on commas recovers the id strings. -/
theorem splitOn_ctxKey (c : List Nat) (hc : c ≠ []) :
    List.splitOn ',' (ctxKey c) = c.map natToWord := by
  unfold ctxKey
  rw [show List.intercalate [','] (c.map natToWord) =
      [','].intercalate (c.map natToWord) from rfl]
  exact List.splitOn_intercalate (c.map natToWord) ','
    (by
      intro l hl
      obtain ⟨t, _, rfl⟩ := List.mem_map.mp hl
      exact comma_not_mem_natToWord t)
    (by simpa using hc)

/-- Decoding one serialized context entry recovers it. -/
theorem loadCtxEntry_roundtrip (c : List Nat) (inner : Dict Nat Nat)
    (hc : c ≠ []) (hinner : (dkeys inner).Nodup) :
    loadCtxEntry (ctxKey c, Json.obj (inner.map (fun tp =>
        (natToWord tp.1, Json.num tp.2)))) = .ok (c, inner) := by
  have hctx : mapE parsePyNat (List.splitOn ',' (ctxKey c)) = .ok c := by
    rw [splitOn_ctxKey c hc]
    have := mapE_map_ok parsePyNat natToWord id c
      (fun t _ => parsePyNat_natToWord t)
    simpa using this
  have hinner' : mapE loadInnerEntry
      (inner.map (fun tp => (natToWord tp.1, Json.num tp.2))) = .ok inner := by
    have := mapE_map_ok loadInnerEntry
      (fun tp => (natToWord tp.1, Json.num tp.2)) id inner ?_
    · simpa using this
    · intro x _
      show (do
        let tok ← parsePyNat (natToWord x.1)
        let cnt ← asNum (Json.num x.2)
        pure (tok, cnt) : Except PyErr (Nat × Nat)) = .ok x
      rw [parsePyNat_natToWord]
      rfl
  simp only [loadCtxEntry, hctx, jitems_obj, hinner', ebind_ok, epure_eq]
  rw [dictOfList_self _ hinner]

/-- Decoding one serialized order entry recovers it. -/
theorem loadOrderEntry_roundtrip (o : Nat) (tbl : Dict (List Nat) (Dict Nat Nat))
    (htbl : (dkeys tbl).Nodup)
    (hq : ∀ q ∈ tbl, q.1 ≠ [] ∧ (dkeys q.2).Nodup) :
    loadOrderEntry (natToWord o, Json.obj (tbl.map (fun cp =>
        (ctxKey cp.1, Json.obj (cp.2.map (fun tp =>
          (natToWord tp.1, Json.num tp.2))))))) = .ok (o, tbl) := by
  have htblmap : mapE loadCtxEntry (tbl.map (fun cp =>
      (ctxKey cp.1, Json.obj (cp.2.map (fun tp =>
        (natToWord tp.1, Json.num tp.2)))))) = .ok tbl := by
    have := mapE_map_ok loadCtxEntry (fun cp =>
        (ctxKey cp.1, Json.obj (cp.2.map (fun tp =>
          (natToWord tp.1, Json.num tp.2))))) id tbl ?_
    · simpa using this
    · intro q hq'
      have := loadCtxEntry_roundtrip q.1 q.2 (hq q hq').1 (hq q hq').2
      simpa using this
  simp only [loadOrderEntry, parsePyNat_natToWord, jitems_obj, htblmap,
    ebind_ok, epure_eq]
  rw [dictOfList_self _ htbl]

/-- C3: loading a saved well-formed model reproduces the word-to-token
mapping, its inverse, the token id set, the per-order transition tables with
their contexts and counts, the training config, and a next-id counter equal
to the maximum existing id plus one (which equals the original counter). -/
theorem c3_save_load_roundtrip (mc : MarkovChain) (h : SaveWF mc) :
    ∃ mc', load (some (save mc)) = .ok mc' ∧
      mc'.wordToToken = mc.wordToToken ∧
      mc'.tokenToWord = mc.tokenToWord ∧
      mc'.vocabularyTokenIds = mc.vocabularyTokenIds ∧
      (∃ maxId, pyMaxList (dvalues mc.wordToToken) = .ok maxId ∧
        mc'.currentTokenId = maxId + 1) ∧
      mc'.currentTokenId = mc.currentTokenId ∧
      mc'.chains = mc.chains ∧
      mc'.trainingConfig = mc.trainingConfig := by
  obtain ⟨hne, hkeys, hval, hinv, hvoc, hcur, houter, hchains⟩ := h
  obtain ⟨m, hm⟩ : ∃ m, mc.wordToToken.length = m + 1 := by
    cases hl : mc.wordToToken.length with
    | zero => exact absurd (List.length_eq_zero.mp hl) hne
    | succ m => exact ⟨m, rfl⟩
  have h1 : jget (save mc) "word_to_token".toList =
      .ok (Json.obj (mc.wordToToken.map (fun p => (p.1, Json.num p.2)))) := rfl
  have h2 : jget (save mc) "chains".toList =
      .ok (Json.obj (serializeChains mc.chains)) := rfl
  have h3 : jget (save mc) "training_config".toList =
      .ok (Json.obj [("max_order".toList,
        Json.num mc.trainingConfig.maxOrder)]) := rfl
  have h4 : jget (Json.obj [("max_order".toList,
      Json.num mc.trainingConfig.maxOrder)]) "max_order".toList =
      .ok (Json.num mc.trainingConfig.maxOrder) := rfl
  have hpairs : mapE loadWordEntry
      (mc.wordToToken.map (fun p => (p.1, Json.num p.2))) = .ok mc.wordToToken := by
    have := mapE_map_ok loadWordEntry (fun p => (p.1, Json.num p.2)) id
      mc.wordToToken (fun p _ => by simp [loadWordEntry, pyInt, Except.map])
    simpa using this
  have hdict : dictOfList mc.wordToToken = mc.wordToToken :=
    dictOfList_self _ hkeys
  have hinvd : dictOfList (mc.wordToToken.map (fun p => (p.2, p.1))) =
      mc.wordToToken.map (fun p => (p.2, p.1)) := by
    refine dictOfList_self _ ?_
    rw [dkeys_map_swap, hval]
    exact List.nodup_range _
  have hdedup : dedupKeep (dvalues mc.wordToToken) [] = dvalues mc.wordToToken := by
    refine dedupKeep_of_nodup _ _ ?_ (by simp)
    rw [hval]
    exact List.nodup_range _
  have hmax : pyMaxList (dvalues mc.wordToToken) = .ok m := by
    rw [hval, hm]
    exact pyMaxList_range m
  have hchainmap : mapE loadOrderEntry (serializeChains mc.chains) =
      .ok mc.chains := by
    have := mapE_map_ok loadOrderEntry (fun op =>
        (natToWord op.1, Json.obj (op.2.map (fun cp =>
          (ctxKey cp.1, Json.obj (cp.2.map (fun tp =>
            (natToWord tp.1, Json.num tp.2)))))))) id mc.chains ?_
    · simpa [serializeChains] using this
    · intro p hp
      have := loadOrderEntry_roundtrip p.1 p.2 (hchains p hp).1
        (fun q hq => (hchains p hp).2 q hq)
      simpa using this
  have hdictchains : dictOfList mc.chains = mc.chains :=
    dictOfList_self _ houter
  have hload : load (some (save mc)) = .ok
      { trainingConfig := { maxOrder := mc.trainingConfig.maxOrder },
        generationConfig := defaultGenerationConfig,
        wordToToken := mc.wordToToken,
        tokenToWord := mc.wordToToken.map (fun p => (p.2, p.1)),
        vocabularyTokenIds := dvalues mc.wordToToken,
        chains := mc.chains,
        currentTokenId := m + 1 } := by
    simp only [load, h1, jitems_obj, hpairs, hdict, hinvd, hdedup, hmax, h2,
      hchainmap, hdictchains, h3, h4, asNum, ebind_ok, epure_eq]
  refine ⟨_, hload, rfl, ?_, ?_, ⟨m, hmax, rfl⟩, ?_, rfl, rfl⟩
  · exact hinv.symm
  · exact hvoc.symm
  · show m + 1 = mc.currentTokenId
    rw [hcur, hm]

/-- C3 witness: the round trip on the concrete sample model. -/
theorem c3_witness :
    ∃ mc', load (some (save sampleChain)) = .ok mc' ∧
      mc'.wordToToken = sampleChain.wordToToken ∧
      mc'.tokenToWord = sampleChain.tokenToWord ∧
      mc'.vocabularyTokenIds = sampleChain.vocabularyTokenIds ∧
      (∃ maxId, pyMaxList (dvalues sampleChain.wordToToken) = .ok maxId ∧
        mc'.currentTokenId = maxId + 1) ∧
      mc'.currentTokenId = sampleChain.currentTokenId ∧
      mc'.chains = sampleChain.chains ∧
      mc'.trainingConfig = sampleChain.trainingConfig :=
  c3_save_load_roundtrip sampleChain (by unfold SaveWF; decide)

/-! ## Every reachable trained model satisfies the save invariants -/

theorem mem_dkeys_dset {α β : Type} [DecidableEq α] (d : Dict α β) (k : α)
    (v : β) (k' : α) (h : k' ∈ dkeys (dset d k v)) : k' ∈ dkeys d ∨ k' = k := by
  rw [dkeys_dset] at h
  by_cases hm : k ∈ dkeys d
  · rw [if_pos hm] at h
    exact Or.inl h
  · rw [if_neg hm] at h
    rcases List.mem_append.mp h with h1 | h1
    · exact Or.inl h1
    · exact Or.inr (List.mem_singleton.mp h1)

theorem ctxAt_ne_nil (tokens : List Nat) (i order : Nat) (h1 : 1 ≤ order)
    (h2 : i < tokens.length - order) : ctxAt tokens i order ≠ [] := by
  rw [← List.length_pos]
  unfold ctxAt
  rw [List.length_take, List.length_drop, Nat.lt_min]
  omega

theorem bumpRange_ctx_ne_nil (tokens : List Nat) (order : Nat)
    (tbl : Dict (List Nat) (Dict Nat Nat)) (horder : 1 ≤ order)
    (h : ∀ q ∈ tbl, q.1 ≠ []) :
    ∀ q ∈ (List.range (tokens.length - order)).foldl
      (fun t i => bumpEntry t (ctxAt tokens i order) (tokens.getD (i + order) 0))
      tbl, q.1 ≠ [] := by
  have hgen : ∀ n, n ≤ tokens.length - order →
      ∀ q ∈ (List.range n).foldl
        (fun t i => bumpEntry t (ctxAt tokens i order) (tokens.getD (i + order) 0))
        tbl, q.1 ≠ [] := by
    intro n
    induction n with
    | zero => exact fun _ => h
    | succ n ih =>
      intro hn q hq
      rw [List.range_succ, List.foldl_append, List.foldl_cons,
        List.foldl_nil] at hq
      unfold bumpEntry at hq
      rcases mem_dset _ _ _ _ hq with hm | hm
      · exact ih (by omega) q hm
      · rw [hm]
        exact ctxAt_ne_nil tokens n order horder (by omega)
  exact hgen _ le_rfl

theorem orderFold_ctx_ne_nil (tokens : List Nat) (L : List Nat)
    (cs : Dict Nat (Dict (List Nat) (Dict Nat Nat)))
    (hL : ∀ o ∈ L, 1 ≤ o)
    (h : ∀ p ∈ cs, ∀ q ∈ p.2, q.1 ≠ []) :
    ∀ p ∈ L.foldl (fun cs order =>
      dset cs order (addOrderChain tokens order ((dget? cs order).getD []))) cs,
      ∀ q ∈ p.2, q.1 ≠ [] := by
  induction L generalizing cs with
  | nil => exact h
  | cons o rest ih =>
    rw [List.foldl_cons]
    refine ih _ (fun o' ho' => hL o' (List.mem_cons_of_mem _ ho')) ?_
    intro p hp q hq
    rcases mem_dset _ _ _ _ hp with hm | hm
    · exact h p hm q hq
    · have hbase : ∀ q ∈ (dget? cs o).getD [], q.1 ≠ [] := by
        cases hs : dget? cs o with
        | none =>
          intro q hq'
          cases hq'
        | some tbl =>
          simp only [Option.getD_some]
          exact h _ (dget?_mem _ _ _ hs)
      rw [hm] at hq
      exact bumpRange_ctx_ne_nil tokens o _ (hL o (List.mem_cons_self _ _))
        hbase q hq

theorem addToChain_ctx_ne_nil (mc : MarkovChain) (ws : List Word)
    (h : ∀ p ∈ mc.chains, ∀ q ∈ p.2, q.1 ≠ []) :
    ∀ p ∈ (addToChain mc ws).chains, ∀ q ∈ p.2, q.1 ≠ [] := by
  show ∀ p ∈ (List.range' 1 mc.trainingConfig.maxOrder).foldl
    (fun cs order =>
      dset cs order (addOrderChain
        (ws.map (fun w => (dget? mc.wordToToken w).getD 0)) order
        ((dget? cs order).getD []))) mc.chains, ∀ q ∈ p.2, q.1 ≠ []
  exact orderFold_ctx_ne_nil _ _ _
    (fun o ho => by rw [List.mem_range'_1] at ho; omega) h

theorem trainStep_chainswf (mc : MarkovChain) (msg : Word)
    (h : ChainsWF mc) : ChainsWF (trainStep mc msg) := by
  obtain ⟨hwf, hctx⟩ := h
  refine ⟨trainStep_tableswf mc msg hwf, ?_⟩
  refine addToChain_ctx_ne_nil _ _ ?_
  rw [foldl_addAsToken_chains]
  exact hctx

theorem trainFold_chainswf (msgs : List Word) (mc : MarkovChain)
    (h : ChainsWF mc) : ChainsWF (msgs.foldl trainStep mc) := by
  induction msgs generalizing mc with
  | nil => exact h
  | cons m rest ih =>
    rw [List.foldl_cons]
    exact ih _ (trainStep_chainswf mc m h)

theorem dkeys_map_snd_eq {α β γ : Type} (l : List (α × β)) (f : β → γ) :
    dkeys (l.map (fun p => (p.1, f p.2))) = dkeys l := by
  simp only [dkeys, List.map_map]
  rfl

theorem sortChains_chainswf (mc : MarkovChain) (h : ChainsWF mc) :
    ChainsWF (sortChains mc) := by
  obtain ⟨⟨houter, hinner⟩, hctx⟩ := h
  refine ⟨⟨?_, ?_⟩, ?_⟩
  · show (dkeys (mc.chains.map (fun op =>
      (op.1, op.2.map (fun cp => (cp.1, sortCountsDesc cp.2)))))).Nodup
    rw [dkeys_map_snd_eq]
    exact houter
  · intro p hp
    obtain ⟨op, hop, rfl⟩ := List.mem_map.mp hp
    constructor
    · show (dkeys (op.2.map (fun cp => (cp.1, sortCountsDesc cp.2)))).Nodup
      rw [dkeys_map_snd_eq]
      exact (hinner op hop).1
    · intro q hq'
      obtain ⟨cp, hcp, rfl⟩ := List.mem_map.mp hq'
      exact ((sortCountsDesc_perm cp.2).map Prod.fst).nodup_iff.mpr
        ((hinner op hop).2 cp hcp)
  · intro p hp q hq
    obtain ⟨op, hop, rfl⟩ := List.mem_map.mp hp
    obtain ⟨cp, hcp, rfl⟩ := List.mem_map.mp hq
    exact hctx op hop cp hcp

theorem reachable_chainswf (mc : MarkovChain) (h : Reachable mc) :
    ChainsWF mc := by
  induction h with
  | init tc gc =>
    exact ⟨⟨List.nodup_nil, fun p hp => absurd hp (List.not_mem_nil p)⟩,
      fun p hp => absurd hp (List.not_mem_nil p)⟩
  | train msgs _ ih => exact sortChains_chainswf _ (trainFold_chainswf msgs _ ih)

/-- Every reachable model with a nonempty vocabulary satisfies all the
invariants the save/load round trip needs, so the round-trip theorem covers
every actually trained model. -/
theorem reachable_saveWF (mc : MarkovChain) (h : Reachable mc)
    (hne : mc.wordToToken ≠ []) : SaveWF mc := by
  obtain ⟨hval, hkeys, hinv, hvoc, hcur⟩ := reachable_vocab_wf mc h
  obtain ⟨⟨houter, hinner⟩, hctx⟩ := reachable_chainswf mc h
  exact ⟨hne, hkeys, hval, hinv, hvoc, hcur, houter,
    fun p hp => ⟨(hinner p hp).1,
      fun q hq => ⟨hctx p hp q hq, (hinner p hp).2 q hq⟩⟩⟩

/-! ## C9: Levenshtein distance -/

theorem levT_nil_left (ys : Word) : levT [] ys = ys.length := by
  simp [levT]

theorem levT_nil_right (xs : Word) : levT xs [] = xs.length := by
  cases xs <;> simp [levT]

theorem levT_cons_cons (x : Char) (xs : Word) (y : Char) (ys : Word) :
    levT (x :: xs) (y :: ys) =
      if x = y then levT xs ys
      else 1 + Nat.min (levT xs ys)
        (Nat.min (levT xs (y :: ys)) (levT (x :: xs) ys)) := by
  simp [levT]

theorem levT_self (a : Word) : levT a a = 0 := by
  induction a with
  | nil => simp [levT_nil_left]
  | cons x xs ih => rw [levT_cons_cons, if_pos rfl, ih]

/-- Inserting at the head of the second word costs at most one, and
symmetrically deleting the head of the first helps by at most one; the two
bounds are proved together by induction on the total length. -/
theorem levT_ins_del_bounds :
    ∀ N (a b : Word), a.length + b.length ≤ N →
      (∀ y, levT a (y :: b) ≤ 1 + levT a b) ∧
      (∀ x, levT a b ≤ 1 + levT (x :: a) b) := by
  intro N
  induction N with
  | zero =>
    intro a b hab
    have ha : a = [] := List.length_eq_zero.mp (by omega)
    have hb : b = [] := List.length_eq_zero.mp (by omega)
    subst ha
    subst hb
    constructor
    · intro y
      simp [levT_nil_left]
    · intro x
      simp [levT_nil_left, levT_nil_right]
  | succ N ih =>
    intro a b hab
    constructor
    · intro y
      cases a with
      | nil =>
        simp only [levT_nil_left, List.length_cons]
        omega
      | cons x a' =>
        rw [levT_cons_cons]
        by_cases hxy : x = y
        · rw [if_pos hxy]
          have hC := (ih a' b (by simp at hab ⊢; omega)).2 x
          subst hxy
          exact hC
        · rw [if_neg hxy]
          simp only [Nat.min_def]
          split_ifs <;> omega
    · intro x
      cases b with
      | nil =>
        rw [levT_nil_right, levT_nil_right]
        simp only [List.length_cons]
        omega
      | cons y b' =>
        rw [levT_cons_cons]
        by_cases hxy : x = y
        · rw [if_pos hxy]
          have hB := (ih a b' (by simp at hab ⊢; omega)).1 y
          subst hxy
          exact hB
        · rw [if_neg hxy]
          have hB := (ih a b' (by simp at hab ⊢; omega)).1 y
          have hC := (ih a b' (by simp at hab ⊢; omega)).2 x
          simp only [Nat.min_def]
          split_ifs <;> omega

/-- Deleting the head of the first word costs at most one, and removing the
head of the second helps by at most one. -/
theorem levT_del_bounds :
    ∀ N (a b : Word), a.length + b.length ≤ N →
      (∀ x, levT (x :: a) b ≤ 1 + levT a b) ∧
      (∀ y, levT a b ≤ 1 + levT a (y :: b)) := by
  intro N
  induction N with
  | zero =>
    intro a b hab
    have ha : a = [] := List.length_eq_zero.mp (by omega)
    have hb : b = [] := List.length_eq_zero.mp (by omega)
    subst ha
    subst hb
    constructor
    · intro x
      simp [levT_nil_left, levT_nil_right]
    · intro y
      simp [levT_nil_left]
  | succ N ih =>
    intro a b hab
    constructor
    · intro x
      cases b with
      | nil =>
        rw [levT_nil_right, levT_nil_right]
        simp only [List.length_cons]
        omega
      | cons y b' =>
        rw [levT_cons_cons]
        by_cases hxy : x = y
        · rw [if_pos hxy]
          have hD := (ih a b' (by simp at hab ⊢; omega)).2 y
          subst hxy
          exact hD
        · rw [if_neg hxy]
          simp only [Nat.min_def]
          split_ifs <;> omega
    · intro y
      cases a with
      | nil =>
        rw [levT_nil_left, levT_nil_left]
        simp only [List.length_cons]
        omega
      | cons x a' =>
        rw [levT_cons_cons (x := x) (y := y)]
        by_cases hxy : x = y
        · rw [if_pos hxy]
          have hA := (ih a' b (by simp at hab ⊢; omega)).1 x
          subst hxy
          exact hA
        · rw [if_neg hxy]
          have hA := (ih a' b (by simp at hab ⊢; omega)).1 x
          have hD := (ih a' b (by simp at hab ⊢; omega)).2 y
          simp only [Nat.min_def]
          split_ifs <;> omega

theorem trLe_succ {n : Nat} {a b : Word} (h : TrLe n a b) : TrLe (n + 1) a b := by
  induction h with
  | nil n => exact TrLe.nil (n + 1)
  | keep c _ ih => exact TrLe.keep c ih
  | subst c d _ ih => exact TrLe.subst c d ih
  | del c _ ih => exact TrLe.del c ih
  | ins c _ ih => exact TrLe.ins c ih

theorem trLe_mono {n n' : Nat} {a b : Word} (h : TrLe n a b) (hn : n ≤ n') :
    TrLe n' a b := by
  induction hn with
  | refl => exact h
  | step _ ih => exact trLe_succ ih

/-- Any alignment of cost at most n witnesses distance at most n. -/
theorem levT_le_of_trLe {n : Nat} {a b : Word} (h : TrLe n a b) :
    levT a b ≤ n := by
  induction h with
  | nil n => simp [levT_nil_left]
  | keep c h ih =>
    rw [levT_cons_cons, if_pos rfl]
    exact ih
  | subst c d h ih =>
    rw [levT_cons_cons]
    by_cases hcd : c = d
    · rw [if_pos hcd]
      omega
    · rw [if_neg hcd]
      simp only [Nat.min_def]
      split_ifs <;> omega
  | del c h ih =>
    exact le_trans ((levT_del_bounds _ _ _ le_rfl).1 c) (by omega)
  | ins c h ih =>
    exact le_trans ((levT_ins_del_bounds _ _ _ le_rfl).1 c) (by omega)

/-- The distance itself is witnessed by an alignment. -/
theorem trLe_nil_left_word (b : Word) : TrLe b.length [] b := by
  induction b with
  | nil => exact TrLe.nil 0
  | cons c rest ih => exact TrLe.ins c ih

theorem trLe_nil_right_word (a : Word) : TrLe a.length a [] := by
  induction a with
  | nil => exact TrLe.nil 0
  | cons c rest ih => exact TrLe.del c ih

theorem trLe_levT : ∀ (a b : Word), TrLe (levT a b) a b
  | [], b => by
    rw [levT_nil_left]
    exact trLe_nil_left_word b
  | x :: a, [] => by
    rw [levT_nil_right]
    exact trLe_nil_right_word (x :: a)
  | x :: a, y :: b => by
    rw [levT_cons_cons]
    by_cases hxy : x = y
    · rw [if_pos hxy]
      subst hxy
      exact TrLe.keep x (trLe_levT a b)
    · rw [if_neg hxy]
      have h1 := trLe_levT a b
      have h2 := trLe_levT a (y :: b)
      have h3 := trLe_levT (x :: a) b
      rcases Nat.le_total (levT a b)
          (Nat.min (levT a (y :: b)) (levT (x :: a) b)) with hm | hm
      · have hmin : Nat.min (levT a b)
            (Nat.min (levT a (y :: b)) (levT (x :: a) b)) = levT a b := by
          simp only [Nat.min_def] at hm ⊢
          split_ifs at hm ⊢ <;> omega
        rw [hmin, Nat.add_comm]
        exact TrLe.subst x y h1
      · rcases Nat.le_total (levT a (y :: b)) (levT (x :: a) b) with hm2 | hm2
        · have hvw : Nat.min (levT a (y :: b)) (levT (x :: a) b) =
              levT a (y :: b) := by
            simp only [Nat.min_def]
            split_ifs <;> omega
          rw [hvw] at hm ⊢
          have hmin : Nat.min (levT a b) (levT a (y :: b)) =
              levT a (y :: b) := by
            simp only [Nat.min_def]
            split_ifs <;> omega
          rw [hmin, Nat.add_comm]
          exact TrLe.del x h2
        · have hvw : Nat.min (levT a (y :: b)) (levT (x :: a) b) =
              levT (x :: a) b := by
            simp only [Nat.min_def]
            split_ifs <;> omega
          rw [hvw] at hm ⊢
          have hmin : Nat.min (levT a b) (levT (x :: a) b) =
              levT (x :: a) b := by
            simp only [Nat.min_def]
            split_ifs <;> omega
          rw [hmin, Nat.add_comm]
          exact TrLe.ins y h3
termination_by a b => a.length + b.length

theorem trLe_symm {n : Nat} {a b : Word} (h : TrLe n a b) : TrLe n b a := by
  induction h with
  | nil n => exact TrLe.nil n
  | keep c _ ih => exact TrLe.keep c ih
  | subst c d _ ih => exact TrLe.subst d c ih
  | del c _ ih => exact TrLe.ins c ih
  | ins c _ ih => exact TrLe.del c ih

theorem levT_symm (a b : Word) : levT a b = levT b a :=
  Nat.le_antisymm (levT_le_of_trLe (trLe_symm (trLe_levT b a)))
    (levT_le_of_trLe (trLe_symm (trLe_levT a b)))

theorem trLe_zero_eq {n : Nat} {a b : Word} (h : TrLe n a b) (hn : n = 0) :
    a = b := by
  induction h with
  | nil n => rfl
  | keep c _ ih => rw [ih hn]
  | subst c d _ _ => omega
  | del c _ _ => omega
  | ins c _ _ => omega

theorem levT_eq_zero_iff (a b : Word) : levT a b = 0 ↔ a = b := by
  constructor
  · intro h
    exact trLe_zero_eq (h ▸ trLe_levT a b) rfl
  · rintro rfl
    exact levT_self a

/-- Alignments compose: the edits of a-to-b followed by those of b-to-c
align a to c at the summed cost (proved by strong induction on the middle
word's length plus both costs). -/
theorem trLe_comp :
    ∀ N (m n : Nat) (a b c : Word), b.length + m + n ≤ N →
      TrLe m a b → TrLe n b c → TrLe (m + n) a c := by
  intro N
  induction N with
  | zero =>
    intro m n a b c hN h1 h2
    have hm : m = 0 := by omega
    have hn : n = 0 := by omega
    subst hm
    subst hn
    rw [trLe_zero_eq h1 rfl]
    exact h2
  | succ N ih =>
    intro m n a b c hN h1 h2
    cases h1 with
    | nil m =>
      exact trLe_mono h2 (by omega)
    | @keep m a₁ b₁ ch h1' =>
      cases h2 with
      | keep d h2' =>
        exact TrLe.keep ch (ih m n a₁ b₁ _ (by simp at hN ⊢; omega) h1' h2')
      | @subst n' _ c₁ _ d h2' =>
        exact TrLe.subst ch d (ih m n' a₁ b₁ c₁ (by simp at hN ⊢; omega) h1' h2')
      | @del n' _ _ _ h2' =>
        have := ih m n' a₁ b₁ c (by simp at hN ⊢; omega) h1' h2'
        exact trLe_mono (TrLe.del ch this) (by omega)
      | @ins n' _ c₁ d h2' =>
        have := ih m n' (ch :: a₁) (ch :: b₁) c₁ (by simp at hN ⊢; omega)
          (TrLe.keep ch h1') h2'
        exact TrLe.ins d this
    | @subst m' a₁ b₁ ch d h1' =>
      cases h2 with
      | keep _ h2' =>
        exact trLe_mono
          (TrLe.subst ch d (ih m' n a₁ b₁ _ (by simp at hN ⊢; omega) h1' h2'))
          (by omega)
      | @subst n' _ c₁ _ e h2' =>
        have := ih m' n' a₁ b₁ c₁ (by simp at hN ⊢; omega) h1' h2'
        exact trLe_mono (TrLe.subst ch e this) (by omega)
      | @del n' _ _ _ h2' =>
        have := ih m' n' a₁ b₁ c (by simp at hN ⊢; omega) h1' h2'
        exact trLe_mono (TrLe.del ch this) (by omega)
      | @ins n' _ c₁ e h2' =>
        have := ih (m' + 1) n' (ch :: a₁) (d :: b₁) c₁
          (by simp at hN ⊢; omega) (TrLe.subst ch d h1') h2'
        exact trLe_mono (TrLe.ins e this) (by omega)
    | @del m' a₁ _ ch h1' =>
      have := ih m' n a₁ b c (by omega) h1' h2
      exact trLe_mono (TrLe.del ch this) (by omega)
    | @ins m' _ b₁ d h1' =>
      cases h2 with
      | keep _ h2' =>
        have := ih m' n a b₁ _ (by simp at hN ⊢; omega) h1' h2'
        exact trLe_mono (TrLe.ins d this) (by omega)
      | @subst n' _ c₁ _ e h2' =>
        have := ih m' n' a b₁ c₁ (by simp at hN ⊢; omega) h1' h2'
        exact trLe_mono (TrLe.ins e this) (by omega)
      | @del n' _ _ _ h2' =>
        have := ih m' n' a b₁ c (by simp at hN ⊢; omega) h1' h2'
        exact trLe_mono this (by omega)
      | @ins n' _ c₁ e h2' =>
        have := ih (m' + 1) n' a (d :: b₁) c₁ (by simp at hN ⊢; omega)
          (TrLe.ins d h1') h2'
        exact trLe_mono (TrLe.ins e this) (by omega)

/-- The triangle inequality for the reference distance. -/
theorem levT_triangle (a b c : Word) :
    levT a c ≤ levT a b + levT b c :=
  levT_le_of_trLe (trLe_comp (b.length + levT a b + levT b c) _ _ a b c le_rfl
    (trLe_levT a b) (trLe_levT b c))

theorem trLe_keep_snoc {n : Nat} {a b : Word} (c : Char) (h : TrLe n a b) :
    TrLe n (a ++ [c]) (b ++ [c]) := by
  induction h with
  | nil n => exact TrLe.keep c (TrLe.nil n)
  | keep d _ ih => exact TrLe.keep d ih
  | subst d e _ ih => exact TrLe.subst d e ih
  | del d _ ih => exact TrLe.del d ih
  | ins d _ ih => exact TrLe.ins d ih

theorem trLe_subst_snoc {n : Nat} {a b : Word} (c d : Char) (h : TrLe n a b) :
    TrLe (n + 1) (a ++ [c]) (b ++ [d]) := by
  induction h with
  | nil n => exact TrLe.subst c d (TrLe.nil n)
  | keep e _ ih => exact TrLe.keep e ih
  | subst e f _ ih => exact TrLe.subst e f ih
  | del e _ ih => exact TrLe.del e ih
  | ins e _ ih => exact TrLe.ins e ih

theorem trLe_del_snoc {n : Nat} {a b : Word} (c : Char) (h : TrLe n a b) :
    TrLe (n + 1) (a ++ [c]) b := by
  induction h with
  | nil n => exact TrLe.del c (TrLe.nil n)
  | keep e _ ih => exact TrLe.keep e ih
  | subst e f _ ih => exact TrLe.subst e f ih
  | del e _ ih => exact TrLe.del e ih
  | ins e _ ih => exact TrLe.ins e ih

theorem trLe_ins_snoc {n : Nat} {a b : Word} (c : Char) (h : TrLe n a b) :
    TrLe (n + 1) a (b ++ [c]) := by
  induction h with
  | nil n => exact TrLe.ins c (TrLe.nil n)
  | keep e _ ih => exact TrLe.keep e ih
  | subst e f _ ih => exact TrLe.subst e f ih
  | del e _ ih => exact TrLe.del e ih
  | ins e _ ih => exact TrLe.ins e ih

theorem trLe_reverse {n : Nat} {a b : Word} (h : TrLe n a b) :
    TrLe n a.reverse b.reverse := by
  induction h with
  | nil n => exact TrLe.nil n
  | keep c _ ih =>
    rw [List.reverse_cons, List.reverse_cons]
    exact trLe_keep_snoc c ih
  | subst c d _ ih =>
    rw [List.reverse_cons, List.reverse_cons]
    exact trLe_subst_snoc c d ih
  | del c _ ih =>
    rw [List.reverse_cons]
    exact trLe_del_snoc c ih
  | ins c _ ih =>
    rw [List.reverse_cons]
    exact trLe_ins_snoc c ih

theorem levT_reverse (a b : Word) : levT a.reverse b.reverse = levT a b := by
  refine Nat.le_antisymm (levT_le_of_trLe (trLe_reverse (trLe_levT a b))) ?_
  have := levT_le_of_trLe (trLe_reverse (trLe_levT a.reverse b.reverse))
  simpa using this

/-- The recurrence on last characters, obtained from the head recurrence by
reversal; the minimum is arranged in the order the implementation reads its
cells: substitution, the cell above, the cell to the left. -/
theorem levT_snoc (u v : Word) (x y : Char) :
    levT (u ++ [x]) (v ++ [y]) =
      if x = y then levT u v
      else 1 + Nat.min (levT u v)
        (Nat.min (levT (u ++ [x]) v) (levT u (v ++ [y]))) := by
  have h1 : levT (u ++ [x]) (v ++ [y]) =
      levT (x :: u.reverse) (y :: v.reverse) := by
    rw [← levT_reverse (u ++ [x]) (v ++ [y])]
    simp
  rw [h1, levT_cons_cons]
  by_cases hxy : x = y
  · rw [if_pos hxy, if_pos hxy, levT_reverse]
  · rw [if_neg hxy, if_neg hxy]
    congr 1
    rw [levT_reverse]
    congr 1
    have h2 : levT u.reverse (y :: v.reverse) = levT u (v ++ [y]) := by
      rw [← levT_reverse u (v ++ [y])]
      simp
    have h3 : levT (x :: u.reverse) v.reverse = levT (u ++ [x]) v := by
      rw [← levT_reverse (u ++ [x]) v]
      simp
    rw [h2, h3]
    simp only [Nat.min_def]
    split_ifs <;> omega

theorem rowSpec_headD (x u w : Word) : (rowSpec x u w).headD 0 = levT x w := by
  cases u <;> rfl

theorem rowSpec_cons_shape (x u w : Word) :
    rowSpec x u w = levT x w :: (rowSpec x u w).tail := by
  cases u <;> rfl

/-- The inner loop maps the previous row of reference distances to the next
one: the row invariant of the dynamic program. -/
theorem levRowAux_spec (c2 : Char) :
    ∀ (u x w : Word),
      levRowAux c2 u (rowSpec x u w) (levT x (w ++ [c2])) =
        (rowSpec x u (w ++ [c2])).tail
  | [], _, _ => rfl
  | c1 :: u', x, w => by
    show levRowAux c2 (c1 :: u')
      (levT x w :: rowSpec (x ++ [c1]) u' w) (levT x (w ++ [c2])) = _
    simp only [levRowAux, List.headD_cons, List.drop_succ_cons, List.drop_zero]
    rw [rowSpec_headD]
    have hv : (if c1 = c2 then levT x w
        else 1 + Nat.min (levT x w) (Nat.min (levT (x ++ [c1]) w)
          (levT x (w ++ [c2])))) = levT (x ++ [c1]) (w ++ [c2]) :=
      (levT_snoc x w c1 c2).symm
    rw [hv]
    rw [show (rowSpec x (c1 :: u') (w ++ [c2])).tail =
        rowSpec (x ++ [c1]) u' (w ++ [c2]) from rfl,
      rowSpec_cons_shape (x ++ [c1]) u' (w ++ [c2])]
    exact congrArg _ (levRowAux_spec c2 u' (x ++ [c1]) w)

/-- The initial previous_row is the reference row against the empty word. -/
theorem rowSpec_base : ∀ (u x : Word),
    rowSpec x u [] = List.range' x.length (u.length + 1)
  | [], x => by simp [rowSpec, levT_nil_right, List.range']
  | c :: u', x => by
    show levT x [] :: rowSpec (x ++ [c]) u' [] = _
    rw [levT_nil_right, rowSpec_base u' (x ++ [c])]
    simp only [List.length_append, List.length_singleton, List.length_cons]
    rfl

/-- One outer-loop iteration advances the row invariant by one character of
the second word. -/
theorem levRow_spec (c2 : Char) (s1 w : Word) :
    levRow c2 w.length s1 (rowSpec [] s1 w) = rowSpec [] s1 (w ++ [c2]) := by
  have h1 : levT [] (w ++ [c2]) = w.length + 1 := by
    rw [levT_nil_left, List.length_append]
    rfl
  unfold levRow
  rw [← h1, levRowAux_spec c2 s1 [] w, ← rowSpec_cons_shape]

/-- The whole outer loop computes the reference row for the full second
word. -/
theorem levLoop_spec (s1 : Word) : ∀ (rest w : Word),
    levLoop s1 rest w.length (rowSpec [] s1 w) = rowSpec [] s1 (w ++ rest)
  | [], w => by simp [levLoop]
  | c2 :: rest', w => by
    show levLoop s1 rest' (w.length + 1)
      (levRow c2 w.length s1 (rowSpec [] s1 w)) = _
    rw [levRow_spec, show w.length + 1 = (w ++ [c2]).length by simp,
      levLoop_spec s1 rest' (w ++ [c2])]
    simp

/-- The last cell of the reference row is the distance of the full words. -/
theorem rowSpec_getLast : ∀ (u x w : Word),
    (rowSpec x u w).getLast?.getD 0 = levT (x ++ u) w
  | [], x, w => by simp [rowSpec]
  | c :: u', x, w => by
    show (levT x w :: rowSpec (x ++ [c]) u' w).getLast?.getD 0 = _
    rw [rowSpec_cons_shape (x ++ [c]) u' w, List.getLast?_cons_cons,
      ← rowSpec_cons_shape, rowSpec_getLast u' (x ++ [c]) w]
    simp

/-- The single-row implementation computes the reference distance. -/
theorem levenshtein_eq_levT (s1 s2 : Word) :
    levenshtein_distance s1 s2 = levT s1 s2 := by
  unfold levenshtein_distance
  by_cases h : s1.length > s2.length
  · simp only [if_pos h]
    have hloop := levLoop_spec s2 s1 []
    simp only [List.length_nil, List.nil_append] at hloop
    have hlast := rowSpec_getLast s2 [] s1
    simp only [List.nil_append] at hlast
    rw [show List.range (s2.length + 1) = rowSpec [] s2 [] by
        rw [rowSpec_base s2 [], List.range_eq_range']
        rfl,
      hloop, hlast]
    exact levT_symm s2 s1
  · simp only [if_neg h]
    have hloop := levLoop_spec s1 s2 []
    simp only [List.length_nil, List.nil_append] at hloop
    have hlast := rowSpec_getLast s1 [] s2
    simp only [List.nil_append] at hlast
    rw [show List.range (s1.length + 1) = rowSpec [] s1 [] by
        rw [rowSpec_base s1 [], List.range_eq_range']
        rfl,
      hloop, hlast]

/-- C9: the implemented edit distance is symmetric, zero exactly on equal
words, satisfies the triangle inequality, and gives 3 on kitten/sitting. -/
theorem c9_edit_distance_props :
    (∀ a b : Word, levenshtein_distance a b = levenshtein_distance b a) ∧
    (∀ a b : Word, levenshtein_distance a b = 0 ↔ a = b) ∧
    (∀ a b c : Word, levenshtein_distance a c ≤
      levenshtein_distance a b + levenshtein_distance b c) ∧
    levenshtein_distance "kitten".toList "sitting".toList = 3 := by
  refine ⟨?_, ?_, ?_, by decide⟩
  · intro a b
    rw [levenshtein_eq_levT, levenshtein_eq_levT]
    exact levT_symm a b
  · intro a b
    rw [levenshtein_eq_levT]
    exact levT_eq_zero_iff a b
  · intro a b c
    rw [levenshtein_eq_levT, levenshtein_eq_levT, levenshtein_eq_levT]
    exact levT_triangle a b c

end MarkovBot
